import Mathlib

/-!
Verification of the shadcn-treeview tree engine.

This file shallowly embeds the tree-state core of the repository
(`lib/tree-utils.ts`, `hooks/use-tree-state.ts`, `hooks/use-tree-dnd.ts`,
`hooks/use-tree-lazy.ts`, the cross-instance coordinator in `tree-view.tsx`)
and proves properties of the embedded definitions.

Modelling conventions:
* the opaque user payload `data : T` is modelled as a `Nat`;
* JS `Set<string>` values are modelled as `List String` used up to membership
  (insertion order kept where the code iterates the set);
* JS numbers holding depths are modelled as `Int` (drag arithmetic can go
  negative); loop indices as `Nat`;
* an absent (`undefined`) field is modelled as `none`.
-/

/-- Drop position relative to a target node (`tree-types.ts`, `DropPosition`). -/
inductive DropPosition : Type where
  | before : DropPosition
  | after : DropPosition
  | inside : DropPosition
deriving DecidableEq

/-- Flat node record (`tree-types.ts`, `FlatTreeNode`). -/
structure FlatTreeNode where
  id : String
  data : Nat
  isGroup : Bool
  childrenLoaded : Bool
  parentId : Option String
  depth : Int
  index : Nat
deriving DecidableEq

/-- A sequence of nested nodes (`tree-types.ts`, `TreeNodeNested[]`).  Each
`cons` cell is one node: `loaded = false` models an absent (`undefined`)
`children` field (the `children` argument is then ignored by every operation
and kept `nil` by convention), `loaded = true` a present (possibly empty)
children array; `isGroup = none` models an absent flag. -/
inductive NestedForest : Type where
  | nil : NestedForest
  | cons (id : String) (data : Nat) (isGroup : Option Bool)
      (loaded : Bool) (children : NestedForest) (tail : NestedForest) : NestedForest
deriving DecidableEq

/-- Whether a forest is empty (JS `children.length > 0` is its negation). -/
def NestedForest.isNil : NestedForest → Bool
  | .nil => true
  | .cons _ _ _ _ _ _ => false

/-- Concatenation of two sibling sequences (JS array spread). -/
def NestedForest.append : NestedForest → NestedForest → NestedForest
  | .nil, ys => ys
  | .cons i d g l c r, ys => .cons i d g l c (r.append ys)

/-- The flat entry `flattenTree` pushes for one nested node: `isGroup` is
JS `node.isGroup ?? hasChildren` and `childrenLoaded` is
JS `node.children !== undefined`. -/
def nodeEntry (nid : String) (nd : Nat) (ng : Option Bool) (loaded : Bool)
    (cs : NestedForest) (pid : Option String) (depth : Int) (i : Nat) :
    FlatTreeNode :=
  { id := nid, data := nd,
    isGroup := ng.getD (loaded && !cs.isNil),
    childrenLoaded := loaded,
    parentId := pid, depth := depth, index := i }

@[simp] theorem nodeEntry_id (nid nd ng loaded cs pid depth i) :
    (nodeEntry nid nd ng loaded cs pid depth i).id = nid := rfl

@[simp] theorem nodeEntry_data (nid nd ng loaded cs pid depth i) :
    (nodeEntry nid nd ng loaded cs pid depth i).data = nd := rfl

@[simp] theorem nodeEntry_isGroup (nid nd ng loaded cs pid depth i) :
    (nodeEntry nid nd ng loaded cs pid depth i).isGroup
      = ng.getD (loaded && !cs.isNil) := rfl

@[simp] theorem nodeEntry_childrenLoaded (nid nd ng loaded cs pid depth i) :
    (nodeEntry nid nd ng loaded cs pid depth i).childrenLoaded = loaded := rfl

@[simp] theorem nodeEntry_parentId (nid nd ng loaded cs pid depth i) :
    (nodeEntry nid nd ng loaded cs pid depth i).parentId = pid := rfl

@[simp] theorem nodeEntry_depth (nid nd ng loaded cs pid depth i) :
    (nodeEntry nid nd ng loaded cs pid depth i).depth = depth := rfl

@[simp] theorem nodeEntry_index (nid nd ng loaded cs pid depth i) :
    (nodeEntry nid nd ng loaded cs pid depth i).index = i := rfl

/-- `flattenTree` (`tree-utils.ts`): pre-order flattening.  `pid`/`depth` are the
recursion parameters of the source, `i` the loop index assigning `index`. -/
def flattenAux : NestedForest → Option String → Int → Nat → List FlatTreeNode
  | .nil, _, _, _ => []
  | .cons nid nd ng loaded cs rest, pid, depth, i =>
    nodeEntry nid nd ng loaded cs pid depth i ::
    ((if loaded then flattenAux cs (some nid) (depth + 1) 0 else []) ++
      flattenAux rest pid depth (i + 1))

/-- `flattenTree(nodes)` with the default arguments of the source. -/
def flattenTree (nodes : NestedForest) : List FlatTreeNode :=
  flattenAux nodes none 0 0

/-- Whether the `cleanNode` copy made for `f` in `buildTree`'s second loop
captures the children array of the map entry for `f.id`.  In the source the
copy shares the array reference when the entry's `children` is already an
array at copy time: that is the case when `childrenLoaded` was true (the array
is created in the first loop) or when some child entry of `f.id` occurs
earlier in the flat array (the array is created at that child's push).  A
later creation of the array is invisible to the copy. -/
def buildCaptured (flat : List FlatTreeNode) (f : FlatTreeNode) : Bool :=
  f.childrenLoaded ||
    (flat.take (flat.findIdx (fun g => g.id == f.id))).any
      (fun g => g.parentId == some f.id)

/-- The tree read out of `buildTree`'s mutable node map, rendered from a list
of sibling flat entries.  Output `isGroup` is JS `flat.isGroup || undefined`;
the children field is present exactly when the `cleanNode` copy captured the
entry's children array (`buildCaptured`) and then holds, in array order, the
entries whose `parentId` points at the node.  For arrays with pairwise
distinct ids this observes exactly the structure the source returns; `fuel`
only bounds the recursion (any path through the rendered forest visits
pairwise distinct entries for such inputs, so `flat.length + 1` is enough). -/
def buildForestAux (flat : List FlatTreeNode) : Nat → List FlatTreeNode → NestedForest
  | 0, _ => .nil
  | _ + 1, [] => .nil
  | fuel + 1, f :: rest =>
    .cons f.id f.data (if f.isGroup then some true else none)
      (buildCaptured flat f)
      (if buildCaptured flat f then
        buildForestAux flat fuel (flat.filter (fun g => g.parentId == some f.id))
      else .nil)
      (buildForestAux flat fuel rest)

/-- `buildTree` (`tree-utils.ts`): flat entries with `parentId = null` become
the roots, in array order. -/
def buildTree (flat : List FlatTreeNode) : NestedForest :=
  buildForestAux flat (flat.length + 1) (flat.filter (fun f => f.parentId == none))

/-- JS `node.parentId !== null && collapsedAncestors.has(node.parentId)`. -/
def suppressedBy (collapsed : List String) : Option String → Bool
  | some p => decide (p ∈ collapsed)
  | none => false

/-- Loop of `getVisibleNodes` (`tree-utils.ts`), carrying the
`collapsedAncestors` set. -/
def getVisibleNodesAux (expandedIds : List String) :
    List FlatTreeNode → List String → List FlatTreeNode
  | [], _ => []
  | n :: rest, collapsed =>
    if suppressedBy collapsed n.parentId then
      getVisibleNodesAux expandedIds rest (n.id :: collapsed)
    else
      n :: getVisibleNodesAux expandedIds rest
            (if n.isGroup && !(decide (n.id ∈ expandedIds)) then n.id :: collapsed
             else collapsed)

/-- `getVisibleNodes` (`tree-utils.ts`). -/
def getVisibleNodes (flatNodes : List FlatTreeNode) (expandedIds : List String) :
    List FlatTreeNode :=
  getVisibleNodesAux expandedIds flatNodes []

/-- Loop of `getDescendantIds` (`tree-utils.ts`), carrying the growing
`parentSet`. -/
def getDescendantIdsAux : List FlatTreeNode → List String → List String
  | [], _ => []
  | n :: rest, parentSet =>
    match n.parentId with
    | some p =>
      if p ∈ parentSet then n.id :: getDescendantIdsAux rest (n.id :: parentSet)
      else getDescendantIdsAux rest parentSet
    | none => getDescendantIdsAux rest parentSet

/-- `getDescendantIds` (`tree-utils.ts`). -/
def getDescendantIds (flatNodes : List FlatTreeNode) (parentId : String) :
    List String :=
  getDescendantIdsAux flatNodes [parentId]

/-- Loop of `reindexSiblings` (`tree-utils.ts`); `ctr` is the `indexCounters`
map, total with default `0` (`indexCounters.get(key) ?? 0`). -/
def reindexAux : List FlatTreeNode → (Option String → Nat) → List FlatTreeNode
  | [], _ => []
  | n :: rest, ctr =>
    { n with index := ctr n.parentId } ::
      reindexAux rest (fun k => if k = n.parentId then ctr n.parentId + 1 else ctr k)

/-- `reindexSiblings` (`tree-utils.ts`). -/
def reindexSiblings (flatNodes : List FlatTreeNode) : List FlatTreeNode :=
  reindexAux flatNodes (fun _ => 0)

/-- The `removeSet` of `removeNodes` (`tree-utils.ts`): seeded with `ids`, one
forward pass adds every node whose `parentId` is already in the set. -/
def removeSetAux : List FlatTreeNode → List String → List String
  | [], s => s
  | n :: rest, s =>
    match n.parentId with
    | some p => if p ∈ s then removeSetAux rest (n.id :: s) else removeSetAux rest s
    | none => removeSetAux rest s

/-- `removeNodes` (`tree-utils.ts`). -/
def removeNodes (flatNodes : List FlatTreeNode) (ids : List String) :
    List FlatTreeNode :=
  let removeSet := removeSetAux flatNodes ids
  reindexSiblings (flatNodes.filter (fun n => !(decide (n.id ∈ removeSet))))

/-- Loop of `insertNodes` (`tree-utils.ts`) computing `insertAt`: the array
position of the `targetIndex`-th node whose `parentId` equals
`targetParentId`, defaulting to the array length. -/
def insertPosAux (targetParentId : Option String) (targetIndex : Nat) :
    List FlatTreeNode → Nat → Nat → Nat
  | [], pos, _ => pos
  | n :: rest, pos, sibCount =>
    if n.parentId = targetParentId then
      if sibCount = targetIndex then pos
      else insertPosAux targetParentId targetIndex rest (pos + 1) (sibCount + 1)
    else insertPosAux targetParentId targetIndex rest (pos + 1) sibCount

/-- `insertNodes` (`tree-utils.ts`). -/
def insertNodes (flatNodes nodesToInsert : List FlatTreeNode)
    (targetParentId : Option String) (targetIndex : Nat) : List FlatTreeNode :=
  let pos := insertPosAux targetParentId targetIndex flatNodes 0 0
  reindexSiblings (flatNodes.take pos ++ nodesToInsert ++ flatNodes.drop pos)

/-- JS `Math.round(num / den)` for `den > 0`, exactly:
`Math.round x = ⌊x + 1/2⌋` (ties round toward positive infinity). -/
def mathRound (num den : Int) : Int := Int.fdiv (2 * num + den) (2 * den)

/-- Backward scan of `getProjection` from position `i` down to `0`, returning
the id of the first node whose depth equals `d`. -/
def scanParentDepth (visible : List FlatTreeNode) (d : Int) : Nat → Option String
  | 0 =>
    match visible.get? 0 with
    | some n => if n.depth = d then some n.id else none
    | none => none
  | i + 1 =>
    match visible.get? (i + 1) with
    | some n => if n.depth = d then some n.id else scanParentDepth visible d i
    | none => scanParentDepth visible d i

/-- `getProjection` (`tree-utils.ts`): projected depth and parent for a drop.
`offsetX`/`indentWidth` are modelled as integers (whole pixels). -/
def getProjection (flatNodes visibleNodes : List FlatTreeNode)
    (activeId overId : String) (offsetX indentWidth : Int) : Int × Option String :=
  let overIndex := visibleNodes.findIdx (fun n => n.id == overId)
  match visibleNodes.get? overIndex with
  | none => (0, none)
  | some overNode =>
    let baseDepth :=
      match flatNodes.find? (fun n => n.id == activeId) with
      | some a => a.depth
      | none => overNode.depth
    let projectedDepth := max 0 (baseDepth + mathRound offsetX indentWidth)
    let maxDepth := if overNode.isGroup then overNode.depth + 1 else overNode.depth
    let minDepth :=
      match visibleNodes.get? (overIndex + 1) with
      | some nn => nn.depth
      | none => 0
    let clampedDepth := min (max projectedDepth minDepth) maxDepth
    (clampedDepth,
     if 0 < clampedDepth then scanParentDepth visibleNodes (clampedDepth - 1) overIndex
     else none)

/-- `expand` (`use-tree-state.ts`): add `id` to the expansion set. -/
def expandOp (id : String) (prev : List String) : List String :=
  if id ∈ prev then prev else prev ++ [id]

/-- `collapse` (`use-tree-state.ts`): when `id` is in the set, delete it and
every id of `getDescendantIds`; otherwise return the set unchanged. -/
def collapse (flatNodes : List FlatTreeNode) (id : String) (prev : List String) :
    List String :=
  if id ∈ prev then
    let descendants := getDescendantIds flatNodes id
    prev.filter (fun x => !(decide (x = id ∨ x ∈ descendants)))
  else prev

/-- `toggleExpand` (`use-tree-state.ts`): collapse branch deletes `id` and its
descendants, expand branch adds `id`. -/
def toggleExpand (flatNodes : List FlatTreeNode) (id : String) (prev : List String) :
    List String :=
  if id ∈ prev then
    let descendants := getDescendantIds flatNodes id
    prev.filter (fun x => !(decide (x = id ∨ x ∈ descendants)))
  else prev ++ [id]

/-! ### Specification-side notions -/

/-- Well-formedness hypothesis: ids pairwise distinct. -/
def idsNodup (flat : List FlatTreeNode) : Prop := (flat.map (·.id)).Nodup

/-- Well-formedness hypothesis: every parent reference points at an earlier
entry of the array (a consequence of pre-order with valid parent ids). -/
def parentBeforeChild (flat : List FlatTreeNode) : Prop :=
  ∀ pre n post, flat = pre ++ n :: post →
    ∀ p, n.parentId = some p → p ∈ pre.map (·.id)

/-- Executable check for `parentBeforeChild`, carrying the ids seen so far. -/
def pbcAux : List String → List FlatTreeNode → Bool
  | _, [] => true
  | seen, n :: rest =>
    (match n.parentId with
     | some p => decide (p ∈ seen)
     | none => true) && pbcAux (n.id :: seen) rest

theorem pbcAux_sound (l : List FlatTreeNode) :
    ∀ seen, pbcAux seen l = true →
      ∀ pre n post, l = pre ++ n :: post → ∀ p, n.parentId = some p →
        p ∈ seen ∨ p ∈ pre.map (·.id) := by
  induction l with
  | nil => intro seen _ pre n post h; exact absurd h (by simp)
  | cons m rest ih =>
    intro seen h pre n post hdec p hp
    rw [pbcAux, Bool.and_eq_true] at h
    cases pre with
    | nil =>
      simp only [List.nil_append, List.cons.injEq] at hdec
      obtain ⟨rfl, rfl⟩ := hdec
      left
      have := h.1
      rw [hp] at this
      simpa using this
    | cons q pre' =>
      simp only [List.cons_append, List.cons.injEq] at hdec
      rcases hdec with ⟨rfl, hdec⟩
      rcases ih _ h.2 pre' n post hdec p hp with h1 | h2
      · rcases (by simpa using h1 : p = m.id ∨ p ∈ seen) with h1 | h1
        · right; simp [h1]
        · left; exact h1
      · right; simp [h2]

/-- `pbcAux` with an empty accumulator decides `parentBeforeChild`. -/
theorem parentBeforeChild_of_pbcAux (flat : List FlatTreeNode)
    (h : pbcAux [] flat = true) : parentBeforeChild flat := by
  intro pre n post hdec p hp
  rcases pbcAux_sound flat [] h pre n post hdec p hp with h1 | h1
  · exact absurd h1 (by simp)
  · exact h1

/-- `a` is a strict ancestor of node id `d` in the flat array: following parent
references from the (an) entry with id `d` reaches `a`. -/
inductive IsAnc (flat : List FlatTreeNode) : String → String → Prop where
  | parent (e : FlatTreeNode) (he : e ∈ flat) (a : String)
      (hp : e.parentId = some a) : IsAnc flat a e.id
  | trans (e : FlatTreeNode) (he : e ∈ flat) (b a : String)
      (hp : e.parentId = some b) (h : IsAnc flat a b) : IsAnc flat a e.id

/-- Pre-order list of all ids of a nested forest (ids under an absent
children field are unreachable and not collected). -/
def nestedIds : NestedForest → List String
  | .nil => []
  | .cons i _ _ loaded cs rest =>
    i :: ((if loaded then nestedIds cs else []) ++ nestedIds rest)

/-- Number of reachable nodes of a nested forest. -/
def sizeForest : NestedForest → Nat
  | .nil => 0
  | .cons _ _ _ loaded cs rest =>
    1 + (if loaded then sizeForest cs else 0) + sizeForest rest

/-- The normalisation `buildTree ∘ flattenTree` performs on a forest:
`isGroup` becomes `some true` exactly when it was `true` or was unset on a
node with non-empty present children, and is dropped (`none`) otherwise;
ids, data, and children presence and order are unchanged (an ignored
children value under `loaded = false` is canonicalised to `nil`). -/
def normalizeForest : NestedForest → NestedForest
  | .nil => .nil
  | .cons i d g loaded cs rest =>
    .cons i d (if g.getD (loaded && !cs.isNil) then some true else none)
      loaded (if loaded then normalizeForest cs else .nil) (normalizeForest rest)

/-- The structural equivalence asserted by the round-trip claim: same ids,
data, `isGroup` values, children presence and order, allowing only the
removal of an `isGroup` that was `false`/absent on a node holding no
children. -/
def claimEquivForest : NestedForest → NestedForest → Bool
  | .nil, .nil => true
  | .cons i1 d1 g1 l1 c1 r1, .cons i2 d2 g2 l2 c2 r2 =>
    i1 == i2 && d1 == d2 &&
    (g1 == g2 ||
      (g1 == none && (g2 == none || g2 == some false) && !(l2 && !c2.isNil))) &&
    l1 == l2 && (if l1 && l2 then claimEquivForest c1 c2 else true) &&
    claimEquivForest r1 r2
  | _, _ => false

/-- Array positions of the entries whose `parentId` equals `pid`, in order. -/
def sibPositions (pid : Option String) : List FlatTreeNode → List Nat
  | [] => []
  | n :: rest =>
    if n.parentId = pid then 0 :: (sibPositions pid rest).map (· + 1)
    else (sibPositions pid rest).map (· + 1)

@[simp] theorem setIndex_parentId (n : FlatTreeNode) (v : Nat) :
    ({ n with index := v } : FlatTreeNode).parentId = n.parentId := rfl

@[simp] theorem setIndex_index (n : FlatTreeNode) (v : Nat) :
    ({ n with index := v } : FlatTreeNode).index = v := rfl

/-- The indices assigned by `reindexAux` to the nodes of one sibling group
form the arithmetic sequence starting at the group's counter value. -/
theorem reindexAux_filter (l : List FlatTreeNode) :
    ∀ (ctr : Option String → Nat) (p : Option String),
      ((reindexAux l ctr).filter (fun n => decide (n.parentId = p))).map (·.index)
        = List.range' (ctr p) (l.filter (fun n => decide (n.parentId = p))).length := by
  induction l with
  | nil => intro ctr p; simp [reindexAux]
  | cons n rest ih =>
    intro ctr p
    by_cases h : n.parentId = p
    · subst h
      rw [reindexAux, List.filter_cons, List.filter_cons]
      rw [if_pos (by simp), if_pos (by simp)]
      rw [List.map_cons, setIndex_index, List.length_cons, List.range'_succ, ih]
      rw [if_pos rfl]
    · rw [reindexAux, List.filter_cons, List.filter_cons]
      rw [if_neg (by simp [h]), if_neg (by simp [h]), ih]
      rw [if_neg (fun hh => h hh.symm)]

/-- Sibling indices of a reindexed array form `0..count-1` per parent group. -/
theorem reindexSiblings_contiguous (l : List FlatTreeNode) (p : Option String) :
    ((reindexSiblings l).filter (fun n => decide (n.parentId = p))).map (·.index)
      = List.range ((reindexSiblings l).filter (fun n => decide (n.parentId = p))).length := by
  have h := reindexAux_filter l (fun _ => 0) p
  rw [reindexSiblings]
  have hlen : ((reindexAux l (fun _ => 0)).filter
      (fun n => decide (n.parentId = p))).length
      = (l.filter (fun n => decide (n.parentId = p))).length := by
    have := congrArg List.length h
    simpa using this
  rw [h, hlen, List.range_eq_range']

/-- C7: after any `removeNodes` or `insertNodes` operation, the sibling
`index` values of the nodes sharing each `parentId` form the contiguous
sequence `0..count-1` in flat-array order (no gaps, no duplicates). -/
theorem removeNodes_insertNodes_index_contiguous
    (flat newNodes : List FlatTreeNode) (ids : List String)
    (tpid p : Option String) (tIdx : Nat) :
    (((removeNodes flat ids).filter (fun n => decide (n.parentId = p))).map (·.index)
      = List.range ((removeNodes flat ids).filter
          (fun n => decide (n.parentId = p))).length)
    ∧ (((insertNodes flat newNodes tpid tIdx).filter
          (fun n => decide (n.parentId = p))).map (·.index)
      = List.range ((insertNodes flat newNodes tpid tIdx).filter
          (fun n => decide (n.parentId = p))).length) := by
  constructor
  · rw [removeNodes]
    exact reindexSiblings_contiguous _ p
  · rw [insertNodes]
    exact reindexSiblings_contiguous _ p

/-- The `insertAt` loop finds the array position of the
`targetIndex - sibCount`-th remaining sibling, defaulting to the list end. -/
theorem insertPosAux_spec (pid : Option String) (tIdx : Nat) (l : List FlatTreeNode) :
    ∀ pos sib, sib ≤ tIdx →
      insertPosAux pid tIdx l pos sib
        = pos + (((sibPositions pid l).get? (tIdx - sib)).getD l.length) := by
  induction l with
  | nil => intro pos sib _; simp [insertPosAux, sibPositions]
  | cons n rest ih =>
    intro pos sib hle
    by_cases h : n.parentId = pid
    · rw [insertPosAux, if_pos h, sibPositions, if_pos h]
      by_cases hs : sib = tIdx
      · subst hs
        rw [if_pos rfl]
        simp
      · rw [if_neg hs]
        have hlt : sib < tIdx := lt_of_le_of_ne hle hs
        rw [ih (pos + 1) (sib + 1) hlt]
        have hsub : tIdx - sib = (tIdx - (sib + 1)) + 1 := by omega
        rw [hsub]
        rw [List.get?_cons_succ, List.get?_map]
        cases hq : (sibPositions pid rest).get? (tIdx - (sib + 1)) with
        | none => simp [List.length_cons]; omega
        | some v => simp [hq]; omega
    · rw [insertPosAux, if_neg h, ih (pos + 1) sib hle, sibPositions, if_neg h]
      rw [List.get?_map]
      cases hq : (sibPositions pid rest).get? (tIdx - sib) with
      | none => simp [List.length_cons]; omega
      | some v => simp [hq]; omega

/-- C5 (amended): `insertNodes` splices the new nodes immediately before the
`targetIndex`-th existing child of the target parent when such a child exists,
and otherwise at the end of the entire flat array; sibling indices are then
recomputed. -/
theorem insertNodes_splice (flat newNodes : List FlatTreeNode)
    (pid : Option String) (tIdx : Nat) :
    insertNodes flat newNodes pid tIdx
      = reindexSiblings
          (flat.take (((sibPositions pid flat).get? tIdx).getD flat.length)
            ++ newNodes
            ++ flat.drop (((sibPositions pid flat).get? tIdx).getD flat.length)) := by
  simp only [insertNodes]
  rw [insertPosAux_spec pid tIdx flat 0 0 (Nat.zero_le _)]
  simp

/-- Flat array for the `insertNodes` counterexample: a parent `p` with one
child `c1`, followed by an unrelated root `x`. -/
def insertCexFlat : List FlatTreeNode :=
  [⟨"p", 0, true, true, none, 0, 0⟩, ⟨"c1", 1, false, false, some "p", 1, 0⟩,
   ⟨"x", 2, false, false, none, 0, 1⟩]

/-- The node inserted in the `insertNodes` counterexample. -/
def insertCexNew : FlatTreeNode := ⟨"n", 9, false, false, some "p", 1, 0⟩

/-- C5 counterexample: with `targetIndex = 1`, which is `≥` the parent's child
count `1`, `insertNodes` appends at the end of the whole array — after the
unrelated root `x` — and not at the end of the parent `p`'s children (which
would place `n` before `x`). -/
theorem insertNodes_cex :
    (insertNodes insertCexFlat [insertCexNew] (some "p") 1).map (·.id)
      = ["p", "c1", "x", "n"]
    ∧ insertNodes insertCexFlat [insertCexNew] (some "p") 1
      ≠ reindexSiblings [⟨"p", 0, true, true, none, 0, 0⟩,
          ⟨"c1", 1, false, false, some "p", 1, 0⟩, insertCexNew,
          ⟨"x", 2, false, false, none, 0, 1⟩] := by
  constructor
  · decide
  · decide

/-- The backward parent scan of `getProjection` equals a `find?` over the
reversed visible prefix ending at the scan start. -/
theorem scanParentDepth_eq_find (visible : List FlatTreeNode) (d : Int) :
    ∀ i, scanParentDepth visible d i
      = ((visible.take (i + 1)).reverse.find? (fun n => n.depth == d)).map (·.id) := by
  intro i
  induction i with
  | zero =>
    rw [scanParentDepth, List.take_succ]
    cases h0 : visible[0]? with
    | none => simp [List.get?_eq_getElem?, h0]
    | some n =>
      have hb : (n.depth == d) = (decide (n.depth = d)) := rfl
      by_cases hd : n.depth = d
      · simp [List.get?_eq_getElem?, h0, List.find?, hd]
      · simp [List.get?_eq_getElem?, h0, List.find?, hb, hd]
  | succ i ih =>
    rw [scanParentDepth, List.take_succ (n := i + 1)]
    cases h0 : visible[i + 1]? with
    | none =>
      rw [List.get?_eq_getElem?, h0]
      simpa using ih
    | some n =>
      rw [List.get?_eq_getElem?, h0]
      simp only [Option.toList_some, List.reverse_append, List.reverse_cons,
        List.reverse_nil, List.nil_append, List.singleton_append, List.find?_cons]
      have hb : (n.depth == d) = (decide (n.depth = d)) := rfl
      by_cases hd : n.depth = d
      · simp [hd]
      · simp [hb, hd, ih]

/-- The drop-projection formula exactly as the spec words it: candidate depth
is `baseDepth + round(offsetX/indentWidth)` floored at `0`, clamped to the
window `[lower, upper]`; `parentId` is the nearest node at depth
`clamped - 1` scanning backward from the hovered position in the visible
sequence, and `none` when the clamped depth is `0`. -/
def projectionSpec (flatNodes visibleNodes : List FlatTreeNode)
    (activeId overId : String) (offsetX indentWidth : Int) : Int × Option String :=
  let i := visibleNodes.findIdx (fun n => n.id == overId)
  match visibleNodes.get? i with
  | none => (0, none)
  | some overNode =>
    let baseDepth :=
      ((flatNodes.find? (fun n => n.id == activeId)).map (·.depth)).getD overNode.depth
    let candidate := max 0 (baseDepth + mathRound offsetX indentWidth)
    let upper := overNode.depth + (if overNode.isGroup then 1 else 0)
    let lower := ((visibleNodes.get? (i + 1)).map (·.depth)).getD 0
    let clamped := min (max candidate lower) upper
    (clamped,
     if clamped = 0 then none
     else ((visibleNodes.take (i + 1)).reverse.find?
            (fun n => n.depth == clamped - 1)).map (·.id))

/-- C2: `getProjection` returns exactly the depth and parent described by the
spec formula, for visible sequences with non-negative depths (as produced by
`flattenTree`). -/
theorem getProjection_meets_spec (flatNodes visibleNodes : List FlatTreeNode)
    (activeId overId : String) (offsetX indentWidth : Int)
    (hdepth : ∀ n ∈ visibleNodes, 0 ≤ n.depth) :
    getProjection flatNodes visibleNodes activeId overId offsetX indentWidth
      = projectionSpec flatNodes visibleNodes activeId overId offsetX indentWidth := by
  rw [getProjection, projectionSpec]
  cases hov : visibleNodes.get? (visibleNodes.findIdx (fun n => n.id == overId)) with
  | none => rfl
  | some overNode =>
    have hmem : overNode ∈ visibleNodes := List.get?_mem hov
    have hnn : 0 ≤ overNode.depth := hdepth overNode hmem
    simp only []
    have hbase :
        (match flatNodes.find? (fun n => n.id == activeId) with
          | some a => a.depth
          | none => overNode.depth)
        = ((flatNodes.find? (fun n => n.id == activeId)).map (·.depth)).getD
            overNode.depth := by
      cases flatNodes.find? (fun n => n.id == activeId) <;> rfl
    have hupper : (if overNode.isGroup then overNode.depth + 1 else overNode.depth)
        = overNode.depth + (if overNode.isGroup then 1 else 0) := by
      cases overNode.isGroup <;> simp
    have hlower :
        (match visibleNodes.get?
            (visibleNodes.findIdx (fun n => n.id == overId) + 1) with
          | some nn => nn.depth
          | none => 0)
        = ((visibleNodes.get?
            (visibleNodes.findIdx (fun n => n.id == overId) + 1)).map
              (·.depth)).getD 0 := by
      cases visibleNodes.get? (visibleNodes.findIdx (fun n => n.id == overId) + 1)
        <;> rfl
    rw [hbase, hupper, hlower]
    set baseDepth :=
      ((flatNodes.find? (fun n => n.id == activeId)).map (·.depth)).getD
        overNode.depth with hB
    set lower := ((visibleNodes.get?
        (visibleNodes.findIdx (fun n => n.id == overId) + 1)).map (·.depth)).getD 0
      with hL
    set clamped := min (max (max 0 (baseDepth + mathRound offsetX indentWidth)) lower)
        (overNode.depth + if overNode.isGroup then 1 else 0) with hC
    have hclamped_nonneg : 0 ≤ clamped := by
      rw [hC]
      have h1 : (0 : Int) ≤ max (max 0 (baseDepth + mathRound offsetX indentWidth)) lower := by
        have := le_max_left (0 : Int) (baseDepth + mathRound offsetX indentWidth)
        exact le_trans this (le_max_left _ _)
      have h2 : (0 : Int) ≤ overNode.depth + if overNode.isGroup then 1 else 0 := by
        cases overNode.isGroup <;> simp <;> omega
      exact le_min h1 h2
    by_cases hz : clamped = 0
    · rw [if_neg (show ¬0 < clamped by omega), if_pos hz]
    · rw [if_pos (show 0 < clamped by omega), if_neg hz, scanParentDepth_eq_find]

/-- A small two-level tree used for concrete witnesses:
`[ a (group, children [a1]), b ]`. -/
def demoNested : NestedForest :=
  .cons "a" 0 (some true) true (.cons "a1" 1 none false .nil .nil)
    (.cons "b" 2 none false .nil .nil)

/-- Witness for C2: at a fully concrete input the projection hypothesis holds
and `getProjection` meets the spec formula (both compute `(1, some "a")`). -/
theorem getProjection_meets_spec_witness :
    (∀ n ∈ getVisibleNodes (flattenTree demoNested) ["a"], 0 ≤ n.depth)
    ∧ getProjection (flattenTree demoNested)
        (getVisibleNodes (flattenTree demoNested) ["a"]) "b" "a1" 25 20
      = projectionSpec (flattenTree demoNested)
          (getVisibleNodes (flattenTree demoNested) ["a"]) "b" "a1" 25 20
    ∧ getProjection (flattenTree demoNested)
        (getVisibleNodes (flattenTree demoNested) ["a"]) "b" "a1" 25 20
      = (1, some "a") :=
  ⟨by decide,
   getProjection_meets_spec _ _ _ _ _ _ (by decide),
   by decide⟩

/-! ### Round-trip: `buildTree (flattenTree x) = normalizeForest x` -/

/-- The node-level entries `flattenAux` produces for the top level of a
forest (its recursion into children and the tail removed). -/
def topEntries : NestedForest → Option String → Int → Nat → List FlatTreeNode
  | .nil, _, _, _ => []
  | .cons i d g loaded cs rest, pid, depth, idx =>
    nodeEntry i d g loaded cs pid depth idx :: topEntries rest pid depth (idx + 1)

/-- Every flattened entry's id is an id of the forest, and its parent is the
ambient parent or an id of the forest. -/
theorem flattenAux_entry_shape (cs : NestedForest) :
    ∀ pid d idx e, e ∈ flattenAux cs pid d idx →
      e.id ∈ nestedIds cs ∧
        (e.parentId = pid ∨ ∃ q ∈ nestedIds cs, e.parentId = some q) := by
  induction cs with
  | nil => intro pid d idx e he; simp [flattenAux] at he
  | cons i dta g loaded csub rest ihc ihr =>
    intro pid d idx e he
    rw [flattenAux] at he
    rcases List.mem_cons.mp he with rfl | he'
    · exact ⟨by simp [nestedIds], Or.inl rfl⟩
    · rcases List.mem_append.mp he' with hc | hr
      · by_cases hl : loaded
        · rw [if_pos hl] at hc
          obtain ⟨hid, hpp⟩ := ihc (some i) (d + 1) 0 e hc
          refine ⟨by simp [nestedIds, hl, hid], Or.inr ?_⟩
          rcases hpp with hpp | ⟨q, hq, hpp⟩
          · exact ⟨i, by simp [nestedIds], hpp⟩
          · exact ⟨q, by simp [nestedIds, hl, hq], hpp⟩
        · rw [if_neg hl] at hc
          simp at hc
      · obtain ⟨hid, hpp⟩ := ihr pid d (idx + 1) e hr
        refine ⟨by simp [nestedIds, hid], ?_⟩
        rcases hpp with hpp | ⟨q, hq, hpp⟩
        · exact Or.inl hpp
        · exact Or.inr ⟨q, by simp [nestedIds, hq], hpp⟩

/-- No flattened entry references `q` as parent when `q` is not an id of the
forest and not the ambient parent. -/
theorem flattenAux_filter_nil (cs : NestedForest) (pid : Option String)
    (d : Int) (idx : Nat) (q : String) (hq : q ∉ nestedIds cs)
    (hpid : pid ≠ some q) :
    (flattenAux cs pid d idx).filter (fun e => e.parentId == some q) = [] := by
  rw [List.filter_eq_nil]
  intro e he
  obtain ⟨_, hpar⟩ := flattenAux_entry_shape cs pid d idx e he
  rcases hpar with hpp | ⟨q2, hq2, hpp⟩
  · simp [hpp]
    intro h
    exact hpid (by rw [h])
  · simp [hpp]
    intro h
    rw [h] at hq2
    exact hq hq2

/-- No flattened entry below an ambient parent has a `null` parent. -/
theorem flattenAux_filter_none_nil (cs : NestedForest) (p : String)
    (d : Int) (idx : Nat) :
    (flattenAux cs (some p) d idx).filter (fun e => e.parentId == none) = [] := by
  rw [List.filter_eq_nil]
  intro e he
  obtain ⟨_, hpar⟩ := flattenAux_entry_shape cs (some p) d idx e he
  rcases hpar with hpp | ⟨q2, _, hpp⟩ <;> simp [hpp]

/-- Filtering the flattening of a forest by its own ambient parent id yields
exactly the top-level entries, provided `q` is not an id inside the forest. -/
theorem flattenAux_filter_self (cs : NestedForest) :
    ∀ q d idx, q ∉ nestedIds cs →
      (flattenAux cs (some q) d idx).filter (fun e => e.parentId == some q)
        = topEntries cs (some q) d idx := by
  induction cs with
  | nil => intro q d idx _; simp [flattenAux, topEntries]
  | cons i dta g loaded csub rest ihc ihr =>
    intro q d idx hq
    have hqi : q ≠ i := by
      intro h; exact hq (by simp [nestedIds, h])
    have hqsub : loaded = true → q ∉ nestedIds csub := by
      intro hl h; exact hq (by simp [nestedIds, hl, h])
    have hqrest : q ∉ nestedIds rest := by
      intro h; exact hq (by simp [nestedIds, h])
    rw [flattenAux, topEntries, List.filter_cons]
    rw [if_pos (by simp)]
    rw [List.filter_append]
    have hchild : (if loaded then flattenAux csub (some i) (d + 1) 0
        else []).filter (fun e => e.parentId == some q) = [] := by
      by_cases hl : loaded
      · rw [if_pos hl]
        exact flattenAux_filter_nil csub (some i) (d + 1) 0 q (hqsub hl)
          (by simp [Ne.symm hqi])
      · rw [if_neg hl]; rfl
    rw [hchild, List.nil_append, ihr q d (idx + 1) hqrest]

/-- Filtering a root-level flattening by a `null` parent yields exactly the
top-level entries. -/
theorem flattenAux_filter_roots (cs : NestedForest) :
    ∀ d idx, (flattenAux cs none d idx).filter (fun e => e.parentId == none)
      = topEntries cs none d idx := by
  induction cs with
  | nil => intro d idx; simp [flattenAux, topEntries]
  | cons i dta g loaded csub rest ihc ihr =>
    intro d idx
    rw [flattenAux, topEntries, List.filter_cons]
    rw [if_pos (by simp)]
    rw [List.filter_append]
    have hchild : (if loaded then flattenAux csub (some i) (d + 1) 0
        else []).filter (fun e => e.parentId == none) = [] := by
      by_cases hl : loaded
      · rw [if_pos hl]; exact flattenAux_filter_none_nil csub i (d + 1) 0
      · rw [if_neg hl]; rfl
    rw [hchild, List.nil_append, ihr d (idx + 1)]

/-- A forest flattens to one entry per reachable node. -/
theorem flattenAux_length (cs : NestedForest) :
    ∀ pid d idx, (flattenAux cs pid d idx).length = sizeForest cs := by
  induction cs with
  | nil => intro pid d idx; simp [flattenAux, sizeForest]
  | cons i dta g loaded csub rest ihc ihr =>
    intro pid d idx
    rw [flattenAux, sizeForest]
    by_cases hl : loaded
    · simp [hl, ihc, ihr]; omega
    · simp [hl, ihr]; omega

/-- `l` mentions none of `ids`, neither as an entry id nor as a parent. -/
def avoids (l : List FlatTreeNode) (ids : List String) : Prop :=
  ∀ e ∈ l, ∀ q ∈ ids, e.parentId ≠ some q ∧ e.id ≠ q

theorem avoids_subset {l : List FlatTreeNode} {ids ids' : List String}
    (h : avoids l ids) (hsub : ∀ q ∈ ids', q ∈ ids) : avoids l ids' :=
  fun e he q hq => h e he q (hsub q hq)

theorem avoids_append {l₁ l₂ : List FlatTreeNode} {ids : List String}
    (h₁ : avoids l₁ ids) (h₂ : avoids l₂ ids) : avoids (l₁ ++ l₂) ids := by
  intro e he q hq
  rcases List.mem_append.mp he with h | h
  exacts [h₁ e h q hq, h₂ e h q hq]

theorem avoids_filter_nil {l : List FlatTreeNode} {ids : List String}
    (h : avoids l ids) {q : String} (hq : q ∈ ids) :
    l.filter (fun e => e.parentId == some q) = [] := by
  rw [List.filter_eq_nil_iff]
  intro e he
  have := (h e he q hq).1
  simpa using this

/-- Rendering the top-level entries of a flattened subforest against the whole
flat array reproduces the normalised subforest.  `P`/`S` are the flat entries
surrounding the subforest's block in the array. -/
theorem buildAux_flatten (cs : NestedForest) :
    ∀ (pid : Option String) (d : Int) (idx fuel : Nat) (P S F : List FlatTreeNode),
      F = P ++ flattenAux cs pid d idx ++ S →
      avoids P (nestedIds cs) → avoids S (nestedIds cs) →
      (∀ q ∈ nestedIds cs, pid ≠ some q) →
      (nestedIds cs).Nodup →
      sizeForest cs < fuel →
      buildForestAux F fuel (topEntries cs pid d idx) = normalizeForest cs := by
  induction cs with
  | nil =>
    intro pid d idx fuel P S F _ _ _ _ _ hfuel
    cases fuel with
    | zero => omega
    | succ fuel => rw [topEntries, buildForestAux, normalizeForest]
  | cons i dta g loaded csub rest ihc ihr =>
    intro pid d idx fuel P S F hF hP hS hpid hnd hfuel
    cases fuel with
    | zero => rw [sizeForest] at hfuel; omega
    | succ fuel =>
    rw [flattenAux] at hF
    rw [nestedIds] at hnd
    have hmemi : i ∈ nestedIds (.cons i dta g loaded csub rest) := by simp [nestedIds]
    have hpid_i : pid ≠ some i := hpid i hmemi
    obtain ⟨hi_not, happ⟩ := List.nodup_cons.mp hnd
    obtain ⟨hsubnd, hrestnd, hdisj⟩ := List.nodup_append.mp happ
    have hic : loaded = true → i ∉ nestedIds csub := by
      intro hl h; exact hi_not (by simp [hl, h])
    have hir : i ∉ nestedIds rest := by
      intro h; exact hi_not (by simp [h])
    have hmem_lift : ∀ q, q ∈ (if loaded then nestedIds csub else []) ++ nestedIds rest →
        q ∈ nestedIds (.cons i dta g loaded csub rest) := by
      intro q hq; simp [nestedIds]; right
      simpa using hq
    have hFi : F.filter (fun e => e.parentId == some i)
        = if loaded then topEntries csub (some i) (d + 1) 0 else [] := by
      rw [hF, List.filter_append, List.filter_append, List.filter_cons]
      rw [if_neg (by simpa using hpid_i)]
      rw [avoids_filter_nil hP hmemi, avoids_filter_nil hS hmemi]
      rw [List.filter_append]
      have hrestf : (flattenAux rest pid d (idx + 1)).filter
          (fun e => e.parentId == some i) = [] :=
        flattenAux_filter_nil rest pid d (idx + 1) i hir hpid_i
      by_cases hl : loaded
      · rw [if_pos hl, if_pos hl]
        rw [flattenAux_filter_self csub i (d + 1) 0 (hic hl), hrestf]
        simp
      · rw [if_neg hl, if_neg hl]
        rw [hrestf]
        simp
    have hcap : buildCaptured F (nodeEntry i dta g loaded csub pid d idx) = loaded := by
      by_cases hl : loaded
      · simp [buildCaptured, hl]
      · rw [buildCaptured]
        have hl0 : loaded = false := by
          cases loaded
          · rfl
          · exact absurd rfl hl
        simp only [nodeEntry_childrenLoaded, hl0, Bool.false_or]
        rw [List.any_eq_false]
        intro x hx
        have hxF : x ∈ F := List.take_subset _ _ hx
        have := List.filter_eq_nil_iff.mp (by rw [hFi, if_neg hl]) x hxF
        simpa using this
    have htail : buildForestAux F fuel (topEntries rest pid d (idx + 1))
        = normalizeForest rest := by
      apply ihr pid d (idx + 1) fuel
        (P ++ (nodeEntry i dta g loaded csub pid d idx ::
          (if loaded then flattenAux csub (some i) (d + 1) 0 else []))) S F
      · rw [hF]; simp [List.append_assoc]
      · apply avoids_append
        · exact avoids_subset hP (fun q hq => hmem_lift q (by simp [hq]))
        · intro e he q hq
          rcases List.mem_cons.mp he with rfl | he'
          · refine ⟨by simpa using hpid q (hmem_lift q (by simp [hq])), ?_⟩
            simp only [nodeEntry_id]
            intro h
            exact hir (h ▸ hq)
          · by_cases hl : loaded
            · rw [if_pos hl] at he'
              obtain ⟨hid, hpar⟩ := flattenAux_entry_shape csub (some i) (d + 1) 0 e he'
              have hqsub : q ∉ nestedIds csub := by
                intro hmem
                exact (hdisj (by simp [hl, hmem])) hq
              constructor
              · rcases hpar with hpp | ⟨q2, hq2, hpp⟩
                · rw [hpp]
                  intro hcontr
                  rw [Option.some.injEq] at hcontr
                  exact hir (hcontr ▸ hq)
                · rw [hpp]
                  intro hcontr
                  rw [Option.some.injEq] at hcontr
                  exact hqsub (hcontr ▸ hq2)
              · intro h
                exact hqsub (h ▸ hid)
            · rw [if_neg hl] at he'
              simp at he'
      · exact avoids_subset hS (fun q hq => hmem_lift q (by simp [hq]))
      · intro q hq
        exact hpid q (hmem_lift q (by simp [hq]))
      · exact hrestnd
      · rw [sizeForest] at hfuel
        omega
    rw [topEntries, buildForestAux, normalizeForest]
    rw [hcap]
    simp only [nodeEntry_id, nodeEntry_data, nodeEntry_isGroup]
    rw [hFi]
    by_cases hl : loaded
    · have hchild : buildForestAux F fuel (topEntries csub (some i) (d + 1) 0)
          = normalizeForest csub := by
        apply ihc (some i) (d + 1) 0 fuel
          (P ++ [nodeEntry i dta g loaded csub pid d idx])
          (flattenAux rest pid d (idx + 1) ++ S) F
        · rw [hF, if_pos hl]; simp [List.append_assoc]
        · apply avoids_append
          · exact avoids_subset hP (fun q hq => hmem_lift q (by simp [hl, hq]))
          · intro e he q hq
            rcases List.mem_singleton.mp he with rfl
            refine ⟨by simpa using hpid q (hmem_lift q (by simp [hl, hq])), ?_⟩
            simp only [nodeEntry_id]
            intro h
            exact hic hl (h ▸ hq)
        · apply avoids_append
          · intro e he q hq
            obtain ⟨hid, hpar⟩ := flattenAux_entry_shape rest pid d (idx + 1) e he
            have hqrest : q ∉ nestedIds rest := by
              intro hmem
              exact (hdisj (by simp [hl, hq])) hmem
            constructor
            · rcases hpar with hpp | ⟨q2, hq2, hpp⟩
              · rw [hpp]; exact hpid q (hmem_lift q (by simp [hl, hq]))
              · rw [hpp]
                intro hcontr
                rw [Option.some.injEq] at hcontr
                exact hqrest (hcontr ▸ hq2)
            · intro h
              exact hqrest (h ▸ hid)
          · exact avoids_subset hS (fun q hq => hmem_lift q (by simp [hl, hq]))
        · intro q hq
          intro h
          rw [Option.some.injEq] at h
          exact hic hl (h ▸ hq)
        · simpa [hl] using hsubnd
        · rw [sizeForest] at hfuel
          simp only [hl, if_true] at hfuel
          omega
      simp only [hl, if_true]
      rw [hchild, htail]
    · have hl0 : loaded = false := by
        cases loaded
        · rfl
        · exact absurd rfl hl
      simp only [hl0, Bool.false_eq_true, if_false]
      rw [htail]

/-- C1 (amended): for every nested forest with pairwise distinct ids,
`buildTree (flattenTree x)` equals `x` up to `isGroup` normalisation: a
node's `isGroup` becomes `true` exactly when it was `true` or was unset on a
node with non-empty children, and is removed otherwise (in particular an
explicit `isGroup: false` is dropped even on a node holding children, and an
unset `isGroup` on a node with children becomes `true`); ids, data and
children presence and order are preserved exactly. -/
theorem buildTree_flattenTree (x : NestedForest)
    (hnd : (nestedIds x).Nodup) :
    buildTree (flattenTree x) = normalizeForest x := by
  rw [buildTree, flattenTree]
  rw [flattenAux_filter_roots x 0 0]
  apply buildAux_flatten x none 0 0 _ [] [] _
  · simp
  · intro e he q hq; simp at he
  · intro e he q hq; simp at he
  · intro q _; simp
  · exact hnd
  · rw [flattenAux_length]; omega

/-- Counterexample forest for the round-trip claim: a node with an explicit
`isGroup: false` holding one child. -/
def roundtripCex : NestedForest :=
  .cons "a" 0 (some false) true (.cons "b" 1 none false .nil .nil) .nil

/-- C1 counterexample: on `[ a (isGroup: false, children: [b]) ]` — a tree
with no lazy group — the round trip drops the explicit `isGroup: false` of a
node that holds children, so the result is not structurally equivalent to the
input in the claimed sense. -/
theorem buildTree_flattenTree_cex :
    claimEquivForest (buildTree (flattenTree roundtripCex)) roundtripCex = false := by
  decide

/-- Witness for C1 (amended) at the concrete two-level demo forest. -/
theorem buildTree_flattenTree_witness :
    (nestedIds demoNested).Nodup
    ∧ buildTree (flattenTree demoNested) = normalizeForest demoNested :=
  ⟨by decide, buildTree_flattenTree demoNested (by decide)⟩

/-! ### Visibility: `getVisibleNodes` -/

/-- Distinct ids identify entries uniquely. -/
theorem idsNodup_unique {flat : List FlatTreeNode} (hnd : idsNodup flat)
    {m m' : FlatTreeNode} (hm : m ∈ flat) (hm' : m' ∈ flat) (h : m.id = m'.id) :
    m = m' :=
  List.inj_on_of_nodup_map hnd hm hm' h

/-- Inversion for the ancestor relation. -/
theorem isAnc_elim {flat : List FlatTreeNode} {a y : String}
    (h : IsAnc flat a y) :
    ∃ e ∈ flat, e.id = y ∧
      (e.parentId = some a ∨ ∃ b, e.parentId = some b ∧ IsAnc flat a b) := by
  cases h with
  | parent e he a hp => exact ⟨e, he, rfl, Or.inl hp⟩
  | trans e he b a hp hh => exact ⟨e, he, rfl, Or.inr ⟨b, hp, hh⟩⟩

/-- With unique ids, the ancestors of a node are its parent and the parent's
ancestors. -/
theorem isAnc_cons_iff {flat : List FlatTreeNode} (hnd : idsNodup flat)
    {n : FlatTreeNode} (hn : n ∈ flat) {p : String} (hp : n.parentId = some p)
    (a : String) :
    IsAnc flat a n.id ↔ a = p ∨ IsAnc flat a p := by
  constructor
  · intro h
    obtain ⟨e, he, hid, hcase⟩ := isAnc_elim h
    have he_eq : e = n := idsNodup_unique hnd he hn hid
    subst he_eq
    rcases hcase with h1 | ⟨b, hb, h2⟩
    · rw [hp] at h1
      exact Or.inl (Option.some.inj h1).symm
    · rw [hp] at hb
      have : b = p := (Option.some.inj hb).symm
      exact Or.inr (this ▸ h2)
  · intro h
    rcases h with rfl | h
    · exact IsAnc.parent n hn a hp
    · exact IsAnc.trans n hn p a hp h

/-- A root node has no ancestors. -/
theorem isAnc_root {flat : List FlatTreeNode} (hnd : idsNodup flat)
    {n : FlatTreeNode} (hn : n ∈ flat) (hp : n.parentId = none) (a : String) :
    ¬ IsAnc flat a n.id := by
  intro h
  obtain ⟨e, he, hid, hcase⟩ := isAnc_elim h
  have he_eq : e = n := idsNodup_unique hnd he hn hid
  subst he_eq
  rcases hcase with h1 | ⟨b, hb, _⟩
  · rw [hp] at h1; exact Option.noConfusion h1
  · rw [hp] at hb; exact Option.noConfusion hb

/-- A node id is "visible" for expansion set `E` when every ancestor of it
that is a group node is expanded. -/
def visPred (flat : List FlatTreeNode) (E : List String) (y : String) : Prop :=
  ∀ m ∈ flat, IsAnc flat m.id y → m.isGroup = true → m.id ∈ E

/-- A processed node suppresses its subtree: it is itself invisible, or it is
a visible group that is not expanded. -/
def suppressing (flat : List FlatTreeNode) (E : List String)
    (m : FlatTreeNode) : Prop :=
  ¬ visPred flat E m.id ∨ (m.isGroup = true ∧ m.id ∉ E)

/-- Visibility of a node from visibility of its parent. -/
theorem visPred_cons {flat : List FlatTreeNode} (hnd : idsNodup flat)
    {n : FlatTreeNode} (hn : n ∈ flat) {p : String} (hp : n.parentId = some p)
    {mp : FlatTreeNode} (hmp : mp ∈ flat) (hmpid : mp.id = p) (E : List String) :
    visPred flat E n.id ↔
      (visPred flat E p ∧ (mp.isGroup = true → p ∈ E)) := by
  constructor
  · intro h
    refine ⟨?_, ?_⟩
    · intro m hm hanc hg
      exact h m hm ((isAnc_cons_iff hnd hn hp m.id).mpr (Or.inr hanc)) hg
    · intro hg
      have := h mp hmp ((isAnc_cons_iff hnd hn hp mp.id).mpr (Or.inl hmpid)) hg
      exact hmpid ▸ this
  · rintro ⟨h1, h2⟩ m hm hanc hg
    rcases (isAnc_cons_iff hnd hn hp m.id).mp hanc with heq | hanc'
    · have hm_eq : m = mp := idsNodup_unique hnd hm hmp (heq.trans hmpid.symm)
      rw [heq]
      exact h2 (hm_eq ▸ hg)
    · exact h1 m hm hanc' hg

/-- A root node is always visible. -/
theorem visPred_root {flat : List FlatTreeNode} (hnd : idsNodup flat)
    {n : FlatTreeNode} (hn : n ∈ flat) (hp : n.parentId = none) (E : List String) :
    visPred flat E n.id :=
  fun m hm hanc _ => absurd hanc (isAnc_root hnd hn hp m.id)

/-- The visibility loop returns a sublist of its input. -/
theorem getVisibleNodesAux_sublist (E : List String) :
    ∀ (l : List FlatTreeNode) (c : List String),
      (getVisibleNodesAux E l c).Sublist l := by
  intro l
  induction l with
  | nil => intro c; simp [getVisibleNodesAux]
  | cons n rest ih =>
    intro c
    rw [getVisibleNodesAux]
    by_cases h : suppressedBy c n.parentId
    · rw [if_pos h]
      exact (ih _).cons n
    · rw [if_neg h]
      exact (ih _).cons₂ n

/-- Invariant characterisation of the visibility loop: with the collapsed set
describing exactly the suppressing nodes of the processed prefix, a node of
the remaining suffix survives iff it is visible. -/
theorem getVisibleNodesAux_mem (flat : List FlatTreeNode) (E : List String)
    (hpbc : parentBeforeChild flat) (hnd : idsNodup flat) :
    ∀ (post pre : List FlatTreeNode) (c : List String),
      flat = pre ++ post →
      (∀ x, x ∈ c ↔ ∃ m ∈ pre, m.id = x ∧ suppressing flat E m) →
      ∀ n, n ∈ getVisibleNodesAux E post c ↔
        (n ∈ post ∧ visPred flat E n.id) := by
  intro post
  induction post with
  | nil => intro pre c _ _ n; simp [getVisibleNodesAux]
  | cons m rest ih =>
    intro pre c hflat hc n
    have hmflat : m ∈ flat := by rw [hflat]; simp
    have hpre_flat : ∀ m' ∈ pre, m' ∈ flat := by
      intro m' h; rw [hflat]; simp [h]
    -- the suppression test is exactly invisibility of `m`
    have hsup_iff : suppressedBy c m.parentId = true ↔ ¬ visPred flat E m.id := by
      cases hp : m.parentId with
      | none =>
        simp [suppressedBy, visPred_root hnd hmflat hp E]
      | some p =>
        have hex : ∃ mp ∈ pre, mp.id = p := by
          have := hpbc pre m rest hflat p hp
          rcases List.mem_map.mp this with ⟨mp, h1, h2⟩
          exact ⟨mp, h1, h2⟩
        obtain ⟨mp, hmp_pre, hmp_id⟩ := hex
        have hmp_flat : mp ∈ flat := hpre_flat mp hmp_pre
        have h1 : suppressedBy c (some p) = true ↔ p ∈ c := by
          simp [suppressedBy]
        have h2 : p ∈ c ↔ suppressing flat E mp := by
          rw [hc p]
          constructor
          · rintro ⟨m', hm'_pre, hm'_id, hm'_sup⟩
            have : m' = mp :=
              idsNodup_unique hnd (hpre_flat m' hm'_pre) hmp_flat
                (hm'_id.trans hmp_id.symm)
            exact this ▸ hm'_sup
          · intro h
            exact ⟨mp, hmp_pre, hmp_id, h⟩
        have h3 : visPred flat E m.id ↔
            (visPred flat E p ∧ (mp.isGroup = true → p ∈ E)) :=
          visPred_cons hnd hmflat hp hmp_flat hmp_id E
        rw [h1, h2, h3]
        rw [suppressing, hmp_id]
        constructor
        · intro h
          rcases h with h | ⟨hg, hne⟩
          · tauto
          · tauto
        · intro h
          by_cases hv : visPred flat E p
          · right
            constructor
            · by_contra hg
              apply h
              refine ⟨hv, ?_⟩
              intro hg'
              exact absurd hg' hg
            · intro hmem
              exact h ⟨hv, fun _ => hmem⟩
          · left; exact hv
    rw [getVisibleNodesAux]
    by_cases hs : suppressedBy c m.parentId = true
    · have hnvis : ¬ visPred flat E m.id := hsup_iff.mp hs
      rw [if_pos hs]
      have hIH := ih (pre ++ [m]) (m.id :: c) (by rw [hflat]; simp) ?_ n
      · rw [hIH]
        constructor
        · rintro ⟨h1, h2⟩
          exact ⟨List.mem_cons_of_mem m h1, h2⟩
        · rintro ⟨h1, h2⟩
          rcases List.mem_cons.mp h1 with rfl | h1'
          · exact absurd h2 hnvis
          · exact ⟨h1', h2⟩
      · intro x
        constructor
        · intro hx
          rcases List.mem_cons.mp hx with rfl | hx'
          · exact ⟨m, by simp, rfl, Or.inl hnvis⟩
          · obtain ⟨m', h1, h2, h3⟩ := (hc x).mp hx'
            exact ⟨m', by simp [h1], h2, h3⟩
        · rintro ⟨m', hm', hid, hsup⟩
          rcases List.mem_append.mp hm' with h | h
          · exact List.mem_cons_of_mem _ ((hc x).mpr ⟨m', h, hid, hsup⟩)
          · rcases List.mem_singleton.mp h with rfl
            exact hid ▸ List.mem_cons_self _ _
    · have hvis : visPred flat E m.id := by
        by_contra hv
        exact hs (hsup_iff.mpr hv)
      rw [if_neg hs]
      have hcnew : ∀ x,
          x ∈ (if m.isGroup && !(decide (m.id ∈ E)) then m.id :: c else c) ↔
            ∃ m' ∈ pre ++ [m], m'.id = x ∧ suppressing flat E m' := by
        intro x
        by_cases hg : m.isGroup = true ∧ m.id ∉ E
        · rw [if_pos (by simp [hg.1, hg.2])]
          constructor
          · intro hx
            rcases List.mem_cons.mp hx with rfl | hx'
            · exact ⟨m, by simp, rfl, Or.inr hg⟩
            · obtain ⟨m', h1, h2, h3⟩ := (hc x).mp hx'
              exact ⟨m', by simp [h1], h2, h3⟩
          · rintro ⟨m', hm', hid, hsup⟩
            rcases List.mem_append.mp hm' with h | h
            · exact List.mem_cons_of_mem _ ((hc x).mpr ⟨m', h, hid, hsup⟩)
            · rcases List.mem_singleton.mp h with rfl
              exact hid ▸ List.mem_cons_self _ _
        · rw [if_neg (by simpa using fun h1 h2 => hg ⟨h1, h2⟩)]
          rw [hc x]
          constructor
          · rintro ⟨m', h1, h2, h3⟩
            exact ⟨m', by simp [h1], h2, h3⟩
          · rintro ⟨m', hm', hid, hsup⟩
            rcases List.mem_append.mp hm' with h | h
            · exact ⟨m', h, hid, hsup⟩
            · rcases List.mem_singleton.mp h with rfl
              rcases hsup with h | h
              · exact absurd hvis h
              · exact absurd h hg
      have hIH := ih (pre ++ [m]) _ (by rw [hflat]; simp) hcnew n
      rw [List.mem_cons, hIH]
      constructor
      · rintro (rfl | ⟨h1, h2⟩)
        · exact ⟨List.mem_cons_self _ _, hvis⟩
        · exact ⟨List.mem_cons_of_mem _ h1, h2⟩
      · rintro ⟨h1, h2⟩
        rcases List.mem_cons.mp h1 with rfl | h1'
        · exact Or.inl rfl
        · exact Or.inr ⟨h1', h2⟩

/-- C3 (amended): for flat arrays with unique ids whose parent references
point at earlier entries, `getVisibleNodes` returns a subsequence of the
input preserving relative order, and a node is included iff every ancestor of
it that is a group node has its id in the expansion set. -/
theorem getVisibleNodes_spec (flat : List FlatTreeNode) (E : List String)
    (hpbc : parentBeforeChild flat) (hnd : idsNodup flat) :
    (getVisibleNodes flat E).Sublist flat
    ∧ ∀ n, n ∈ getVisibleNodes flat E ↔
        (n ∈ flat ∧
          ∀ m ∈ flat, IsAnc flat m.id n.id → m.isGroup = true → m.id ∈ E) := by
  constructor
  · exact getVisibleNodesAux_sublist E flat []
  · intro n
    exact getVisibleNodesAux_mem flat E hpbc hnd flat [] []
      (by simp) (by simp) n

/-- C3 counterexample: after flattening `[ a (isGroup: false, children: [b]) ]`
with an empty expansion set, node `b` is visible although its ancestor `a` is
not in the expansion set — visibility is only gated by group ancestors. -/
theorem getVisibleNodes_cex :
    (getVisibleNodes (flattenTree roundtripCex) []).map (·.id) = ["a", "b"]
    ∧ IsAnc (flattenTree roundtripCex) "a" "b"
    ∧ "a" ∉ ([] : List String) := by
  refine ⟨by decide, ?_, by simp⟩
  exact IsAnc.parent (nodeEntry "b" 1 none false .nil (some "a") 1 0)
    (by decide) "a" rfl

/-- Witness for C3 (amended) at the concrete demo forest with `a` expanded. -/
theorem getVisibleNodes_spec_witness :
    parentBeforeChild (flattenTree demoNested)
    ∧ idsNodup (flattenTree demoNested)
    ∧ ((getVisibleNodes (flattenTree demoNested) ["a"]).Sublist
        (flattenTree demoNested)
      ∧ ∀ n, n ∈ getVisibleNodes (flattenTree demoNested) ["a"] ↔
          (n ∈ flattenTree demoNested ∧
            ∀ m ∈ flattenTree demoNested,
              IsAnc (flattenTree demoNested) m.id n.id →
                m.isGroup = true → m.id ∈ ["a"])) :=
  ⟨parentBeforeChild_of_pbcAux _ (by decide),
   show ((flattenTree demoNested).map (·.id)).Nodup by decide,
   getVisibleNodes_spec _ _ (parentBeforeChild_of_pbcAux _ (by decide))
     (show ((flattenTree demoNested).map (·.id)).Nodup by decide)⟩

/-! ### Collapse cascade: `collapse` / `toggleExpand` -/

/-- Invariant characterisation of the descendant scan: with the parent set
describing `q` plus the descendants of `q` seen in the prefix, the scan
collects exactly the suffix entries below `q`. -/
theorem getDescendantIdsAux_mem (flat : List FlatTreeNode) (q : String)
    (hpbc : parentBeforeChild flat) (hnd : idsNodup flat) :
    ∀ (post pre : List FlatTreeNode) (s : List String),
      flat = pre ++ post →
      (∀ x, x ∈ s ↔ (x = q ∨ ∃ m ∈ pre, m.id = x ∧ IsAnc flat q x)) →
      ∀ d, d ∈ getDescendantIdsAux post s ↔
        ∃ m ∈ post, m.id = d ∧ IsAnc flat q d := by
  intro post
  induction post with
  | nil => intro pre s _ _ d; simp [getDescendantIdsAux]
  | cons m rest ih =>
    intro pre s hflat hs d
    have hmflat : m ∈ flat := by rw [hflat]; simp
    have hpre_flat : ∀ m' ∈ pre, m' ∈ flat := by
      intro m' h; rw [hflat]; simp [h]
    rw [getDescendantIdsAux]
    cases hp : m.parentId with
    | none =>
      have hnoanc : ¬ IsAnc flat q m.id := isAnc_root hnd hmflat hp q
      have hIH := ih (pre ++ [m]) s (by rw [hflat]; simp) ?_ d
      · rw [hIH]
        constructor
        · rintro ⟨m', h1, h2, h3⟩
          exact ⟨m', List.mem_cons_of_mem _ h1, h2, h3⟩
        · rintro ⟨m', h1, h2, h3⟩
          rcases List.mem_cons.mp h1 with rfl | h1'
          · exact absurd (h2 ▸ h3) hnoanc
          · exact ⟨m', h1', h2, h3⟩
      · intro x
        rw [hs x]
        constructor
        · rintro (rfl | ⟨m', h1, h2, h3⟩)
          · exact Or.inl rfl
          · exact Or.inr ⟨m', by simp [h1], h2, h3⟩
        · rintro (rfl | ⟨m', h1, h2, h3⟩)
          · exact Or.inl rfl
          · rcases List.mem_append.mp h1 with h | h
            · exact Or.inr ⟨m', h, h2, h3⟩
            · rcases List.mem_singleton.mp h with rfl
              exact absurd (h2 ▸ h3) hnoanc
    | some p =>
      have hex : ∃ mp ∈ pre, mp.id = p := by
        have := hpbc pre m rest hflat p hp
        rcases List.mem_map.mp this with ⟨mp, h1, h2⟩
        exact ⟨mp, h1, h2⟩
      obtain ⟨mp, hmp_pre, hmp_id⟩ := hex
      have hmp_flat : mp ∈ flat := hpre_flat mp hmp_pre
      have hanc_iff : IsAnc flat q m.id ↔ (q = p ∨ IsAnc flat q p) :=
        isAnc_cons_iff hnd hmflat hp q
      have hpmem_iff : p ∈ s ↔ IsAnc flat q m.id := by
        rw [hs p, hanc_iff]
        constructor
        · rintro (rfl | ⟨m', _, _, h3⟩)
          · exact Or.inl rfl
          · exact Or.inr h3
        · rintro (rfl | h)
          · exact Or.inl rfl
          · exact Or.inr ⟨mp, hmp_pre, hmp_id, hmp_id ▸ h⟩
      show d ∈ (if p ∈ s then m.id :: getDescendantIdsAux rest (m.id :: s)
          else getDescendantIdsAux rest s) ↔
        ∃ m' ∈ m :: rest, m'.id = d ∧ IsAnc flat q d
      by_cases hmem : p ∈ s
      · rw [if_pos hmem]
        have hanc : IsAnc flat q m.id := hpmem_iff.mp hmem
        have hIH := ih (pre ++ [m]) (m.id :: s) (by rw [hflat]; simp) ?_ d
        · rw [List.mem_cons, hIH]
          constructor
          · rintro (rfl | ⟨m', h1, h2, h3⟩)
            · exact ⟨m, by simp, rfl, hanc⟩
            · exact ⟨m', List.mem_cons_of_mem _ h1, h2, h3⟩
          · rintro ⟨m', h1, h2, h3⟩
            rcases List.mem_cons.mp h1 with rfl | h1'
            · exact Or.inl h2.symm
            · exact Or.inr ⟨m', h1', h2, h3⟩
        · intro x
          rw [List.mem_cons, hs x]
          constructor
          · rintro (rfl | rfl | ⟨m', h1, h2, h3⟩)
            · exact Or.inr ⟨m, by simp, rfl, hanc⟩
            · exact Or.inl rfl
            · exact Or.inr ⟨m', by simp [h1], h2, h3⟩
          · rintro (rfl | ⟨m', h1, h2, h3⟩)
            · exact Or.inr (Or.inl rfl)
            · rcases List.mem_append.mp h1 with h | h
              · exact Or.inr (Or.inr ⟨m', h, h2, h3⟩)
              · rcases List.mem_singleton.mp h with rfl
                exact Or.inl h2.symm
      · rw [if_neg hmem]
        have hnoanc : ¬ IsAnc flat q m.id := fun h => hmem (hpmem_iff.mpr h)
        have hIH := ih (pre ++ [m]) s (by rw [hflat]; simp) ?_ d
        · rw [hIH]
          constructor
          · rintro ⟨m', h1, h2, h3⟩
            exact ⟨m', List.mem_cons_of_mem _ h1, h2, h3⟩
          · rintro ⟨m', h1, h2, h3⟩
            rcases List.mem_cons.mp h1 with rfl | h1'
            · exact absurd (h2 ▸ h3) hnoanc
            · exact ⟨m', h1', h2, h3⟩
        · intro x
          rw [hs x]
          constructor
          · rintro (rfl | ⟨m', h1, h2, h3⟩)
            · exact Or.inl rfl
            · exact Or.inr ⟨m', by simp [h1], h2, h3⟩
          · rintro (rfl | ⟨m', h1, h2, h3⟩)
            · exact Or.inl rfl
            · rcases List.mem_append.mp h1 with h | h
              · exact Or.inr ⟨m', h, h2, h3⟩
              · rcases List.mem_singleton.mp h with rfl
                exact absurd (h2 ▸ h3) hnoanc

/-- Under the pre-order hypotheses, the descendant scan computes exactly the
ids below `q`. -/
theorem getDescendantIds_iff (flat : List FlatTreeNode)
    (hpbc : parentBeforeChild flat) (hnd : idsNodup flat) (q d : String) :
    d ∈ getDescendantIds flat q ↔ IsAnc flat q d := by
  rw [getDescendantIds]
  rw [getDescendantIdsAux_mem flat q hpbc hnd flat [] [q] (by simp) (by simp) d]
  constructor
  · rintro ⟨m', _, h2, h3⟩; exact h3
  · intro h
    obtain ⟨e, he, hid, _⟩ := isAnc_elim h
    exact ⟨e, he, hid, h⟩

/-- C6 (amended): when `n` is in the expansion set, `collapse` (and the
collapsing branch of `toggleExpand`) removes exactly `n` and every descendant
id of `n`; when `n` is not in the expansion set, `collapse` returns the set
unchanged — even if stale descendant ids of `n` remain in it. -/
theorem collapse_spec (flat : List FlatTreeNode) (n : String) (E : List String)
    (hpbc : parentBeforeChild flat) (hnd : idsNodup flat) :
    (n ∈ E → ∀ d, d ∈ collapse flat n E ↔
        (d ∈ E ∧ d ≠ n ∧ ¬ IsAnc flat n d))
    ∧ (n ∉ E → collapse flat n E = E)
    ∧ (n ∈ E → toggleExpand flat n E = collapse flat n E) := by
  refine ⟨?_, ?_, ?_⟩
  · intro hmem d
    rw [collapse, if_pos hmem]
    rw [List.mem_filter]
    have hdesc := getDescendantIds_iff flat hpbc hnd n d
    constructor
    · rintro ⟨h1, h2⟩
      simp only [Bool.not_eq_true', decide_eq_false_iff_not] at h2
      push_neg at h2
      exact ⟨h1, h2.1, fun h => h2.2 (hdesc.mpr h)⟩
    · rintro ⟨h1, h2, h3⟩
      refine ⟨h1, ?_⟩
      simp only [Bool.not_eq_true', decide_eq_false_iff_not]
      push_neg
      exact ⟨h2, fun h => h3 (hdesc.mp h)⟩
  · intro hmem
    rw [collapse, if_neg hmem]
  · intro hmem
    rw [collapse, toggleExpand, if_pos hmem, if_pos hmem]

/-- Flat array for the collapse counterexample: group `n` with group child
`d`. -/
def collapseCexFlat : List FlatTreeNode :=
  [⟨"n", 0, true, true, none, 0, 0⟩, ⟨"d", 1, true, true, some "n", 1, 0⟩]

/-- C6 counterexample: with expansion set `{d}` (stale descendant, `n` itself
not expanded), `collapse n` is a no-op and the descendant id `d` is *not*
removed, contradicting the claim that `collapse(n)` always produces the set
with `n` and every descendant of `n` removed. -/
theorem collapse_cex :
    collapse collapseCexFlat "n" ["d"] = ["d"]
    ∧ IsAnc collapseCexFlat "n" "d"
    ∧ "d" ∈ collapse collapseCexFlat "n" ["d"] := by
  refine ⟨by decide, ?_, by decide⟩
  exact IsAnc.parent ⟨"d", 1, true, true, some "n", 1, 0⟩ (by decide) "n" rfl

/-- Witness for C6 (amended) on the concrete two-node flat array. -/
theorem collapse_spec_witness :
    parentBeforeChild collapseCexFlat
    ∧ ((collapseCexFlat.map (·.id)).Nodup)
    ∧ (("n" ∈ ["n", "d"] → ∀ d, d ∈ collapse collapseCexFlat "n" ["n", "d"] ↔
          (d ∈ ["n", "d"] ∧ d ≠ "n" ∧ ¬ IsAnc collapseCexFlat "n" d))
      ∧ ("n" ∉ ["n", "d"] → collapse collapseCexFlat "n" ["n", "d"] = ["n", "d"])
      ∧ ("n" ∈ ["n", "d"] →
          toggleExpand collapseCexFlat "n" ["n", "d"]
            = collapse collapseCexFlat "n" ["n", "d"])) :=
  ⟨parentBeforeChild_of_pbcAux _ (by decide), by decide,
   collapse_spec collapseCexFlat "n" ["n", "d"]
     (parentBeforeChild_of_pbcAux _ (by decide))
     (show ((collapseCexFlat.map (·.id)).Nodup) by decide)⟩

/-! ### Drag-end handler (`use-tree-dnd.ts`), lazy loader (`use-tree-lazy.ts`)
and cross-instance coordinator (`tree-view.tsx`) -/

/-- Selection mode of a tree instance. -/
inductive SelectionMode : Type where
  | none : SelectionMode
  | single : SelectionMode
  | multiple : SelectionMode
deriving DecidableEq

/-- `TreeDragEvent` (`tree-types.ts`): descriptor passed to DND callbacks. -/
structure TreeDragEvent where
  source : FlatTreeNode
  sourceTreeId : String
  target : FlatTreeNode
  targetTreeId : String
  position : DropPosition
  projectedDepth : Int

/-- The immediately-consistent projection refs read by `handleDragEnd`
(`dropPositionRef`, `projectedDepthRef`, `projectedParentIdRef`). -/
structure DndSessionRefs where
  dropPosition : Option DropPosition
  projectedDepth : Option Int
  projectedParentId : Option String
deriving DecidableEq

/-- Drag-end event as delivered by the drag library, reduced to the fields
the handler reads. -/
structure DragEndEvent where
  canceled : Bool
  sourceId : Option String
  targetId : Option String
deriving DecidableEq

/-- Observable outcome of `handleDragEnd`: the flat array handed to
`buildTree`/`onItemsChange` (or `none` when no structural change is
emitted) and whether the `onDragEnd` notification fired.  Session state is
reset on every path. -/
structure DragEndOutcome where
  itemsEmitted : Option (List FlatTreeNode)
  dragEndEmitted : Bool
deriving DecidableEq

/-- JS `selectionMode === "multiple" && selectedIds.has(sourceNode.id) &&
selectedIds.size > 1`. -/
def movingMultiple (selected : List String) (mode : SelectionMode)
    (srcId : String) : Bool :=
  decide (mode = .multiple) && decide (srcId ∈ selected)
    && decide (1 < selected.length)

/-- The `allDescendants` set of the multiple-selection branch: descendants of
every selected id. -/
def allSelectedDescendants (flatNodes : List FlatTreeNode)
    (selected : List String) : List String :=
  selected.foldl (fun acc id => acc ++ getDescendantIds flatNodes id) []

/-- `rootIdsToMove`: selected ids that are not descendants of another
selected id, or just the dragged node. -/
def computedRootIds (flatNodes : List FlatTreeNode) (selected : List String)
    (mode : SelectionMode) (srcId : String) : List String :=
  if movingMultiple selected mode srcId then
    selected.filter
      (fun id => !(decide (id ∈ allSelectedDescendants flatNodes selected)))
  else [srcId]

/-- `allIdsToMove`: every root to move together with its descendants. -/
def computedAllIds (flatNodes : List FlatTreeNode) (rootIds : List String) :
    List String :=
  rootIds.foldl
    (fun acc rootId => acc ++ (rootId :: getDescendantIds flatNodes rootId)) []

/-- The mutation core of `handleDragEnd`: remove the moving subtrees,
reparent/re-depth the dragged nodes, and splice them back after the target
(`inside`: right after the target; `after`: past the target's subtree). -/
def applyMove (flatNodes : List FlatTreeNode) (rootIds allIds : List String)
    (projParent : Option String) (depthDiff : Int)
    (dropPosition : Option DropPosition) (tid : String) : List FlatTreeNode :=
  let draggedNodes := flatNodes.filter (fun n => decide (n.id ∈ allIds))
  let remaining := removeNodes flatNodes rootIds
  let updatedDragged := draggedNodes.map (fun n =>
    if rootIds.contains n.id then
      { n with depth := n.depth + depthDiff, parentId := projParent }
    else { n with depth := n.depth + depthDiff })
  let targetFlatIdx := remaining.findIdx (fun n => n.id == tid)
  let insertAt :=
    match remaining.get? targetFlatIdx with
    | none => remaining.length
    | some tn =>
      if dropPosition = some .inside then targetFlatIdx + 1
      else targetFlatIdx + 1 +
        ((remaining.drop (targetFlatIdx + 1)).takeWhile
          (fun n => tn.depth < n.depth)).length
  remaining.take insertAt ++ updatedDragged ++ remaining.drop insertAt

/-- `handleDragEnd` (`use-tree-dnd.ts`), with `onItemsChange` present: on
cancellation, missing source/target, unresolvable nodes, a failing `canDrop`
guard, or a projected parent inside the moving set, it only resets session
state; otherwise it computes the moved flat array and emits it together with
the `onDragEnd` notification. -/
def dndHandleDragEnd (treeId : String) (flatNodes : List FlatTreeNode)
    (selectedIds : List String) (selectionMode : SelectionMode)
    (canDrop : Option (TreeDragEvent → Bool))
    (refs : DndSessionRefs) (ev : DragEndEvent) : DragEndOutcome :=
  if ev.canceled then ⟨none, false⟩
  else
    match ev.sourceId, ev.targetId with
    | some sid, some tid =>
      match flatNodes.find? (fun n => n.id == sid),
            flatNodes.find? (fun n => n.id == tid) with
      | some sourceNode, some targetNode =>
        let dragEvent : TreeDragEvent :=
          { source := sourceNode, sourceTreeId := treeId,
            target := targetNode, targetTreeId := treeId,
            position := refs.dropPosition.getD .after,
            projectedDepth := refs.projectedDepth.getD targetNode.depth }
        if (match canDrop with | some f => !(f dragEvent) | none => false) then
          ⟨none, false⟩
        else
          let rootIdsToMove :=
            computedRootIds flatNodes selectedIds selectionMode sourceNode.id
          let allIdsToMove := computedAllIds flatNodes rootIdsToMove
          if (match refs.projectedParentId with
              | some p => decide (p ∈ allIdsToMove)
              | none => false) then ⟨none, false⟩
          else
            ⟨some (applyMove flatNodes rootIdsToMove allIdsToMove
                refs.projectedParentId
                ((refs.projectedDepth.getD 0) - sourceNode.depth)
                refs.dropPosition tid), true⟩
      | _, _ => ⟨none, false⟩
    | _, _ => ⟨none, false⟩

/-- `insertChildren`'s `insertInto` (`use-tree-state.ts`): rebuild the nested
forest with `newChildren` appended under the node with id `parentId` (whose
children become present); other nodes recurse into their present children. -/
def insertInto (parentId : String) (newChildren : NestedForest) :
    NestedForest → NestedForest
  | .nil => .nil
  | .cons i d g loaded cs rest =>
    if i = parentId then
      .cons i d g true ((if loaded then cs else .nil).append newChildren)
        (insertInto parentId newChildren rest)
    else
      .cons i d g loaded (if loaded then insertInto parentId newChildren cs else cs)
        (insertInto parentId newChildren rest)

/-- State of the lazy-load controller (`use-tree-lazy.ts`) together with the
tree state its callbacks mutate: the caller-owned nested items, the
expansion set, the `inFlightRef` set, the `loadingIds` set, and logs of the
loader invocations and reported errors. -/
structure LazyState where
  items : NestedForest
  expandedIds : List String
  inFlight : List String
  loadingIds : List String
  loaderCalls : List String
  reportedErrors : List String
deriving DecidableEq

/-- The synchronous part of `triggerLoad` (`use-tree-lazy.ts`): guarded by
loader presence, `isGroup`, `childrenLoaded` and the in-flight marker; when
it fires it registers the id as in flight, marks it loading, and invokes the
loader (recorded in `loaderCalls`). -/
def triggerLoad (hasLoader : Bool) (node : FlatTreeNode) (st : LazyState) :
    LazyState :=
  if !hasLoader then st
  else if !node.isGroup then st
  else if node.childrenLoaded then st
  else if node.id ∈ st.inFlight then st
  else
    { st with
      inFlight := node.id :: st.inFlight,
      loadingIds := node.id :: st.loadingIds,
      loaderCalls := st.loaderCalls ++ [node.id] }

/-- Continuation of `triggerLoad` when the loader promise resolves: insert
the children under the node, expand it (`.then`), and clear the in-flight
and loading markers (`.finally`). -/
def resolveLoadSuccess (nodeId : String) (children : NestedForest)
    (st : LazyState) : LazyState :=
  { st with
    items := insertInto nodeId children st.items,
    expandedIds := expandOp nodeId st.expandedIds,
    inFlight := st.inFlight.filter (fun x => x ≠ nodeId),
    loadingIds := st.loadingIds.filter (fun x => x ≠ nodeId) }

/-- Continuation when the loader promise rejects: report the error
(`.catch` → `onLoadError`), clear the markers (`.finally`), and leave the
items and the expansion set untouched. -/
def resolveLoadFailure (nodeId : String) (st : LazyState) : LazyState :=
  { st with
    reportedErrors := st.reportedErrors ++ [nodeId],
    inFlight := st.inFlight.filter (fun x => x ≠ nodeId),
    loadingIds := st.loadingIds.filter (fun x => x ≠ nodeId) }

/-- C8: the lazy-load controller (a) treats a second trigger for a node
already in flight as a no-op (the loader is invoked at most once per node
while a load is in flight), (b) fires for a loadable group regardless of
which other distinct nodes are currently in flight (distinct nodes load
concurrently), (c) on success inserts the returned children under the node,
expands it, and clears the in-flight marker, and (d) on failure reports the
error, performs no insertion and no expansion, and clears the in-flight
marker so that a later trigger for the node invokes the loader again. -/
theorem triggerLoad_spec (hasLoader : Bool) (node : FlatTreeNode)
    (st : LazyState) (children : NestedForest) :
    (node.id ∈ st.inFlight → triggerLoad hasLoader node st = st)
    ∧ (hasLoader = true → node.isGroup = true → node.childrenLoaded = false →
        node.id ∉ st.inFlight →
        (triggerLoad hasLoader node st).loaderCalls = st.loaderCalls ++ [node.id]
        ∧ node.id ∈ (triggerLoad hasLoader node st).inFlight)
    ∧ ((resolveLoadSuccess node.id children st).items
          = insertInto node.id children st.items
      ∧ (resolveLoadSuccess node.id children st).expandedIds
          = expandOp node.id st.expandedIds
      ∧ node.id ∉ (resolveLoadSuccess node.id children st).inFlight)
    ∧ ((resolveLoadFailure node.id st).items = st.items
      ∧ (resolveLoadFailure node.id st).expandedIds = st.expandedIds
      ∧ (resolveLoadFailure node.id st).reportedErrors
          = st.reportedErrors ++ [node.id]
      ∧ node.id ∉ (resolveLoadFailure node.id st).inFlight
      ∧ (hasLoader = true → node.isGroup = true → node.childrenLoaded = false →
          (triggerLoad hasLoader node (resolveLoadFailure node.id st)).loaderCalls
            = (resolveLoadFailure node.id st).loaderCalls ++ [node.id])) := by
  refine ⟨?_, ?_, ?_, ?_⟩
  · intro hmem
    rw [triggerLoad]
    split_ifs with h1 h2 h3 h4 <;> first | rfl | exact absurd hmem h4
  · intro h1 h2 h3 h4
    rw [triggerLoad]
    rw [if_neg (by simp [h1]), if_neg (by simp [h2]), if_neg (by simp [h3]),
      if_neg h4]
    exact ⟨rfl, by simp⟩
  · refine ⟨rfl, rfl, ?_⟩
    simp [resolveLoadSuccess]
  · refine ⟨rfl, rfl, rfl, by simp [resolveLoadFailure], ?_⟩
    intro h1 h2 h3
    rw [triggerLoad]
    rw [if_neg (by simp [h1]), if_neg (by simp [h2]), if_neg (by simp [h3]),
      if_neg (by simp [resolveLoadFailure])]

/-- A lazy state with node `g` in flight, used as the C8 witness input. -/
def lazyDemoState : LazyState :=
  { items := .cons "g" 0 (some true) false .nil .nil,
    expandedIds := [], inFlight := ["g"], loadingIds := ["g"],
    loaderCalls := ["g"], reportedErrors := [] }

/-- The lazy group node of the C8 witness. -/
def lazyDemoNode : FlatTreeNode := ⟨"g", 0, true, false, none, 0, 0⟩

/-- Witness for C8: with `g` in flight, a second trigger is a no-op; after a
failure the marker is cleared and a new trigger fires the loader again. -/
theorem triggerLoad_spec_witness :
    lazyDemoNode.id ∈ lazyDemoState.inFlight
    ∧ triggerLoad true lazyDemoNode lazyDemoState = lazyDemoState
    ∧ (triggerLoad true lazyDemoNode
        (resolveLoadFailure lazyDemoNode.id lazyDemoState)).loaderCalls
      = (resolveLoadFailure lazyDemoNode.id lazyDemoState).loaderCalls ++ ["g"] :=
  ⟨by decide,
   (triggerLoad_spec true lazyDemoNode lazyDemoState .nil).1 (by decide),
   (triggerLoad_spec true lazyDemoNode lazyDemoState .nil).2.2.2.2.2.2.2
     rfl rfl rfl⟩

/-- A registered tree instance as seen by the coordinator
(`DndGroupRegistration` in `tree-view.tsx`): its id, the ids of its current
flat nodes, and its live drag projection. -/
structure DndRegistration where
  treeId : String
  flatIds : List String
  dropPosition : Option DropPosition
  projectedDepth : Option Int
  projectedParentId : Option String
deriving DecidableEq

/-- The cross-tree move descriptor delivered to the consumer
(`CrossTreeDragInfo` in `tree-view.tsx`). -/
structure CrossTreeDragInfo where
  sourceTreeId : String
  targetTreeId : String
  dropPosition : Option DropPosition
  projectedDepth : Option Int
  projectedParentId : Option String
deriving DecidableEq

/-- `findOwnerTree`: the first registered instance whose flat nodes contain
the id. -/
def findOwnerTree (regs : List DndRegistration) (nodeId : String) :
    Option DndRegistration :=
  regs.find? (fun r => decide (nodeId ∈ r.flatIds))

/-- Observable outcome of the coordinator's `handleDragEnd`: the instance a
real (non-canceled) end event is delegated to, the instances reset with a
synthetic `canceled` end event, and the payloads of the `onDragEnd`
invocations (`none` = plain event, `some info` = event with `crossTree`). -/
structure CoordDragEndResult where
  delegatedTo : Option String
  canceledCalls : List String
  emitted : List (Option CrossTreeDragInfo)
deriving DecidableEq

/-- `TreeViewDndContext.handleDragEnd` (`tree-view.tsx`): same-instance drops
are delegated; cross-instance drops snapshot the target's projection, reset
both instances as canceled, and deliver a single descriptor; without a
resolvable source and target either nothing is routed (ids present but
unowned) or every instance is reset (missing id). -/
def ctxHandleDragEnd (regs : List DndRegistration)
    (sourceId targetId : Option String) : CoordDragEndResult :=
  match sourceId, targetId with
  | some sid, some tid =>
    match findOwnerTree regs sid, findOwnerTree regs tid with
    | some sourceTree, some targetTree =>
      if sourceTree.treeId = targetTree.treeId then
        { delegatedTo := some sourceTree.treeId, canceledCalls := [],
          emitted := [none] }
      else
        { delegatedTo := none,
          canceledCalls := [sourceTree.treeId, targetTree.treeId],
          emitted := [some ⟨sourceTree.treeId, targetTree.treeId,
            targetTree.dropPosition, targetTree.projectedDepth,
            targetTree.projectedParentId⟩] }
    | _, _ => { delegatedTo := none, canceledCalls := [], emitted := [none] }
  | _, _ =>
    { delegatedTo := none, canceledCalls := regs.map (·.treeId),
      emitted := [none] }

/-- C9: when a shared-session drag ends with the source id owned by instance
`A` and the target id owned by a different instance `B`, the coordinator
delegates to neither instance, resets exactly the two instances' sessions as
canceled, and delivers exactly one cross-instance descriptor carrying `A`'s
id, `B`'s id and `B`'s live projection; and a per-instance drag-end handler
receiving a canceled event emits no structural change. -/
theorem ctxHandleDragEnd_cross (regs : List DndRegistration)
    (sid tid : String) (A B : DndRegistration)
    (hA : findOwnerTree regs sid = some A)
    (hB : findOwnerTree regs tid = some B)
    (hne : A.treeId ≠ B.treeId) :
    ctxHandleDragEnd regs (some sid) (some tid)
      = { delegatedTo := none,
          canceledCalls := [A.treeId, B.treeId],
          emitted := [some ⟨A.treeId, B.treeId, B.dropPosition,
            B.projectedDepth, B.projectedParentId⟩] }
    ∧ (∀ (treeId : String) (flatNodes : List FlatTreeNode)
        (selectedIds : List String) (selectionMode : SelectionMode)
        (canDrop : Option (TreeDragEvent → Bool)) (refs : DndSessionRefs)
        (ev : DragEndEvent), ev.canceled = true →
          (dndHandleDragEnd treeId flatNodes selectedIds selectionMode
            canDrop refs ev).itemsEmitted = none) := by
  constructor
  · rw [ctxHandleDragEnd, hA, hB]
    exact if_neg hne
  · intro treeId flatNodes selectedIds selectionMode canDrop refs ev hc
    rw [dndHandleDragEnd, if_pos hc]

/-- Registrations for the C9 witness: instance `A` owning node `x`, instance
`B` owning node `y` with a live projection. -/
def coordRegA : DndRegistration := ⟨"A", ["x"], none, none, none⟩

/-- Instance `B` of the C9 witness. -/
def coordRegB : DndRegistration :=
  ⟨"B", ["y"], some .inside, some 1, some "y"⟩

/-- Witness for C9 at a concrete two-instance registry: dropping `x` on `y`
yields exactly one descriptor with source `A`, target `B` and `B`'s
projection. -/
theorem ctxHandleDragEnd_cross_witness :
    findOwnerTree [coordRegA, coordRegB] "x" = some coordRegA
    ∧ findOwnerTree [coordRegA, coordRegB] "y" = some coordRegB
    ∧ ("A" : String) ≠ "B"
    ∧ ctxHandleDragEnd [coordRegA, coordRegB] (some "x") (some "y")
        = { delegatedTo := none,
            canceledCalls := ["A", "B"],
            emitted := [some ⟨"A", "B", some .inside, some 1, some "y"⟩] } :=
  ⟨by decide, by decide, by decide,
   ((ctxHandleDragEnd_cross [coordRegA, coordRegB] "x" "y" coordRegA coordRegB
      (by decide) (by decide) (by decide)).1)⟩

/-! ### Acyclicity of completed drag moves -/

/-- Position of the entry with id `x` (the array length when absent). -/
def entryPos (flat : List FlatTreeNode) (x : String) : Nat :=
  flat.findIdx (fun n => n.id == x)

theorem findIdx_append_first {α : Type} (p : α → Bool) (pre : List α) (n : α)
    (post : List α) (hpre : ∀ x ∈ pre, p x = false) (hn : p n = true) :
    (pre ++ n :: post).findIdx p = pre.length := by
  induction pre with
  | nil => simp [List.findIdx_cons, hn]
  | cons a rest ih =>
    rw [List.cons_append, List.findIdx_cons, hpre a (by simp)]
    rw [ih (fun x hx => hpre x (by simp [hx]))]
    simp

theorem findIdx_append_lt {α : Type} (p : α → Bool) (pre post : List α)
    (h : ∃ x ∈ pre, p x = true) :
    (pre ++ post).findIdx p < pre.length := by
  induction pre with
  | nil => simp at h
  | cons a rest ih =>
    rw [List.cons_append, List.findIdx_cons]
    cases hpa : p a
    · obtain ⟨x, hx, hpx⟩ := h
      rcases List.mem_cons.mp hx with rfl | hx'
      · rw [hpa] at hpx; exact absurd hpx (by simp)
      · have := ih ⟨x, hx', hpx⟩
        simp only [cond_false, List.length_cons]
        omega
    · simp

/-- With unique ids and parents pointing backward, a parent entry sits
strictly before its child. -/
theorem entryPos_parent_lt (flat : List FlatTreeNode)
    (hpbc : parentBeforeChild flat) (hnd : idsNodup flat)
    {e : FlatTreeNode} (he : e ∈ flat) {a : String} (hp : e.parentId = some a) :
    entryPos flat a < entryPos flat e.id := by
  obtain ⟨pre, post, hdec⟩ := List.append_of_mem he
  have hmem := hpbc pre e post hdec a hp
  have hnotpre : ∀ x ∈ pre, (x.id == e.id) = false := by
    intro x hx
    have hnd' := hnd
    rw [hdec, idsNodup, List.map_append] at hnd'
    obtain ⟨_, _, hdisj⟩ := List.nodup_append.mp hnd'
    simp only [beq_eq_false_iff_ne, ne_eq]
    intro hxe
    exact hdisj (List.mem_map_of_mem _ hx) (by simp [hxe])
  have h1 : entryPos flat e.id = pre.length := by
    rw [entryPos, hdec]
    exact findIdx_append_first _ pre e post hnotpre (by simp)
  have h2 : entryPos flat a < pre.length := by
    rw [entryPos, hdec]
    apply findIdx_append_lt
    rcases List.mem_map.mp hmem with ⟨m, hm, hid⟩
    exact ⟨m, hm, by simp [hid]⟩
  omega

/-- The ancestor relation is transitive. -/
theorem isAnc_trans (flat : List FlatTreeNode) {a b c : String}
    (h₁ : IsAnc flat a b) (h₂ : IsAnc flat b c) : IsAnc flat a c := by
  induction h₂ with
  | parent e he b hp => exact .trans e he b a hp h₁
  | trans e he b2 b hp h ih => exact .trans e he b2 a hp (ih h₁)

/-- Ancestors sit strictly before their descendants. -/
theorem isAnc_pos_lt (flat : List FlatTreeNode)
    (hpbc : parentBeforeChild flat) (hnd : idsNodup flat) {a b : String}
    (h : IsAnc flat a b) : entryPos flat a < entryPos flat b := by
  induction h with
  | parent e he a hp => exact entryPos_parent_lt flat hpbc hnd he hp
  | trans e he b' a hp h ih =>
    have h2 := entryPos_parent_lt flat hpbc hnd he hp
    omega

/-- Membership in a fold that appends one block per element. -/
theorem mem_foldl_append {α β : Type} (f : α → List β) (l : List α) :
    ∀ (init : List β) (x : β),
      x ∈ l.foldl (fun acc y => acc ++ f y) init ↔
        (x ∈ init ∨ ∃ y ∈ l, x ∈ f y) := by
  induction l with
  | nil => intro init x; simp
  | cons a rest ih =>
    intro init x
    rw [List.foldl_cons, ih]
    rw [List.mem_append]
    constructor
    · rintro ((h | h) | ⟨y, hy, hx⟩)
      · exact Or.inl h
      · exact Or.inr ⟨a, by simp, h⟩
      · exact Or.inr ⟨y, by simp [hy], hx⟩
    · rintro (h | ⟨y, hy, hx⟩)
      · exact Or.inl (Or.inl h)
      · rcases List.mem_cons.mp hy with rfl | hy'
        · exact Or.inl (Or.inr hx)
        · exact Or.inr ⟨y, hy', hx⟩

/-- Membership in `allIdsToMove`: the roots and their descendants. -/
theorem computedAllIds_mem (flat : List FlatTreeNode)
    (hpbc : parentBeforeChild flat) (hnd : idsNodup flat)
    (roots : List String) (x : String) :
    x ∈ computedAllIds flat roots ↔
      (x ∈ roots ∨ ∃ r ∈ roots, IsAnc flat r x) := by
  rw [computedAllIds, mem_foldl_append]
  constructor
  · rintro (h | ⟨r, hr, hx⟩)
    · simp at h
    · rcases List.mem_cons.mp hx with rfl | hx'
      · exact Or.inl hr
      · exact Or.inr ⟨r, hr, (getDescendantIds_iff flat hpbc hnd r x).mp hx'⟩
  · rintro (h | ⟨r, hr, hanc⟩)
    · exact Or.inr ⟨x, h, by simp⟩
    · exact Or.inr ⟨r, hr,
        List.mem_cons_of_mem _ ((getDescendantIds_iff flat hpbc hnd r x).mpr hanc)⟩

/-- Membership in the `allDescendants` set of the multiple-selection branch. -/
theorem allSelectedDescendants_mem (flat : List FlatTreeNode)
    (hpbc : parentBeforeChild flat) (hnd : idsNodup flat)
    (selected : List String) (x : String) :
    x ∈ allSelectedDescendants flat selected ↔
      ∃ s ∈ selected, IsAnc flat s x := by
  rw [allSelectedDescendants, mem_foldl_append]
  constructor
  · rintro (h | ⟨s, hs, hx⟩)
    · simp at h
    · exact ⟨s, hs, (getDescendantIds_iff flat hpbc hnd s x).mp hx⟩
  · rintro ⟨s, hs, hanc⟩
    exact Or.inr ⟨s, hs, (getDescendantIds_iff flat hpbc hnd s x).mpr hanc⟩

/-- Invariant characterisation of `removeNodes`' removal scan: it collects
the seed ids and the entries below a seed id. -/
theorem removeSetAux_mem_aux (flat : List FlatTreeNode)
    (hpbc : parentBeforeChild flat) (hnd : idsNodup flat) (roots : List String) :
    ∀ (post pre : List FlatTreeNode) (s : List String),
      flat = pre ++ post →
      (∀ x, x ∈ s ↔
        (x ∈ roots ∨ ∃ m ∈ pre, m.id = x ∧ ∃ r ∈ roots, IsAnc flat r x)) →
      ∀ x, x ∈ removeSetAux post s ↔
        (x ∈ roots ∨ ∃ m ∈ flat, m.id = x ∧ ∃ r ∈ roots, IsAnc flat r x) := by
  intro post
  induction post with
  | nil =>
    intro pre s hflat hs x
    rw [removeSetAux, hs x]
    rw [hflat, List.append_nil]
  | cons m rest ih =>
    intro pre s hflat hs x
    have hmflat : m ∈ flat := by rw [hflat]; simp
    have hpre_flat : ∀ m' ∈ pre, m' ∈ flat := by
      intro m' h; rw [hflat]; simp [h]
    rw [removeSetAux]
    cases hp : m.parentId with
    | none =>
      have hnoanc : ∀ r, ¬ IsAnc flat r m.id := fun r => isAnc_root hnd hmflat hp r
      apply ih (pre ++ [m]) s (by rw [hflat]; simp)
      intro y
      rw [hs y]
      constructor
      · rintro (h | ⟨m', h1, h2, h3⟩)
        · exact Or.inl h
        · exact Or.inr ⟨m', by simp [h1], h2, h3⟩
      · rintro (h | ⟨m', h1, h2, h3⟩)
        · exact Or.inl h
        · rcases List.mem_append.mp h1 with h | h
          · exact Or.inr ⟨m', h, h2, h3⟩
          · rcases List.mem_singleton.mp h with rfl
            obtain ⟨r, _, hanc⟩ := h3
            exact absurd (h2 ▸ hanc) (hnoanc r)
    | some p =>
      have hex : ∃ mp ∈ pre, mp.id = p := by
        have := hpbc pre m rest hflat p hp
        rcases List.mem_map.mp this with ⟨mp, h1, h2⟩
        exact ⟨mp, h1, h2⟩
      obtain ⟨mp, hmp_pre, hmp_id⟩ := hex
      have hanc_iff : ∀ r, IsAnc flat r m.id ↔ (r = p ∨ IsAnc flat r p) :=
        fun r => isAnc_cons_iff hnd hmflat hp r
      have hpmem_iff : p ∈ s ↔ (∃ r ∈ roots, IsAnc flat r m.id) := by
        rw [hs p]
        constructor
        · rintro (h | ⟨m', _, _, ⟨r, hr, h3⟩⟩)
          · exact ⟨p, h, (hanc_iff p).mpr (Or.inl rfl)⟩
          · exact ⟨r, hr, (hanc_iff r).mpr (Or.inr h3)⟩
        · rintro ⟨r, hr, hanc⟩
          rcases (hanc_iff r).mp hanc with rfl | hanc'
          · exact Or.inl hr
          · exact Or.inr ⟨mp, hmp_pre, hmp_id, r, hr, hmp_id ▸ hanc'⟩
      show (x ∈ if p ∈ s then removeSetAux rest (m.id :: s) else removeSetAux rest s) ↔ _
      by_cases hmem : p ∈ s
      · rw [if_pos hmem]
        have hanc : ∃ r ∈ roots, IsAnc flat r m.id := hpmem_iff.mp hmem
        apply ih (pre ++ [m]) (m.id :: s) (by rw [hflat]; simp)
        intro y
        rw [List.mem_cons, hs y]
        constructor
        · rintro (rfl | h | ⟨m', h1, h2, h3⟩)
          · exact Or.inr ⟨m, by simp, rfl, hanc⟩
          · exact Or.inl h
          · exact Or.inr ⟨m', by simp [h1], h2, h3⟩
        · rintro (h | ⟨m', h1, h2, h3⟩)
          · exact Or.inr (Or.inl h)
          · rcases List.mem_append.mp h1 with h | h
            · exact Or.inr (Or.inr ⟨m', h, h2, h3⟩)
            · rcases List.mem_singleton.mp h with rfl
              exact Or.inl h2.symm
      · rw [if_neg hmem]
        have hnoanc : ¬ ∃ r ∈ roots, IsAnc flat r m.id :=
          fun h => hmem (hpmem_iff.mpr h)
        apply ih (pre ++ [m]) s (by rw [hflat]; simp)
        intro y
        rw [hs y]
        constructor
        · rintro (h | ⟨m', h1, h2, h3⟩)
          · exact Or.inl h
          · exact Or.inr ⟨m', by simp [h1], h2, h3⟩
        · rintro (h | ⟨m', h1, h2, h3⟩)
          · exact Or.inl h
          · rcases List.mem_append.mp h1 with h | h
            · exact Or.inr ⟨m', h, h2, h3⟩
            · rcases List.mem_singleton.mp h with rfl
              exact absurd (h2 ▸ h3) hnoanc

/-- The removal set of `removeNodes` contains exactly the seed ids and the
ids below a seed id — membership-wise the same set as `allIdsToMove`. -/
theorem removeSetAux_mem (flat : List FlatTreeNode)
    (hpbc : parentBeforeChild flat) (hnd : idsNodup flat)
    (roots : List String) (x : String) :
    x ∈ removeSetAux flat roots ↔
      (x ∈ roots ∨ ∃ r ∈ roots, IsAnc flat r x) := by
  rw [removeSetAux_mem_aux flat hpbc hnd roots flat [] roots (by simp) (by simp) x]
  constructor
  · rintro (h | ⟨m', _, _, h3⟩)
    · exact Or.inl h
    · exact Or.inr h3
  · rintro (h | ⟨r, hr, hanc⟩)
    · exact Or.inl h
    · obtain ⟨e, he, hid, _⟩ := isAnc_elim hanc
      exact Or.inr ⟨e, he, hid, r, hr, hanc⟩

/-- Every selected id is covered by a selected root: a selected id that is
not a descendant of another selected id, equal to it or above it. -/
theorem selected_root_cover (flat : List FlatTreeNode)
    (hpbc : parentBeforeChild flat) (hnd : idsNodup flat)
    (selected : List String) :
    ∀ s ∈ selected,
      ∃ r ∈ selected.filter
          (fun id => !(decide (id ∈ allSelectedDescendants flat selected))),
        r = s ∨ IsAnc flat r s := by
  suffices H : ∀ k s, s ∈ selected → entryPos flat s = k →
      ∃ r ∈ selected.filter
          (fun id => !(decide (id ∈ allSelectedDescendants flat selected))),
        r = s ∨ IsAnc flat r s by
    intro s hs
    exact H (entryPos flat s) s hs rfl
  intro k
  induction k using Nat.strong_induction_on with
  | _ k ih =>
    intro s hs hk
    by_cases hmem : s ∈ allSelectedDescendants flat selected
    · obtain ⟨t, ht, hanc⟩ :=
        (allSelectedDescendants_mem flat hpbc hnd selected s).mp hmem
      have hlt : entryPos flat t < k := hk ▸ isAnc_pos_lt flat hpbc hnd hanc
      obtain ⟨r, hr, hcase⟩ := ih _ hlt t ht rfl
      refine ⟨r, hr, Or.inr ?_⟩
      rcases hcase with rfl | h
      · exact hanc
      · exact isAnc_trans flat h hanc
    · refine ⟨s, ?_, Or.inl rfl⟩
      rw [List.mem_filter]
      exact ⟨hs, by simp [hmem]⟩

/-- Two flat arrays with the same id/parent links. -/
def sameLinks (L₁ L₂ : List FlatTreeNode) : Prop :=
  ∀ a b, (∃ e ∈ L₁, e.id = a ∧ e.parentId = b) ↔
    (∃ e ∈ L₂, e.id = a ∧ e.parentId = b)

/-- Reindexing keeps all id/parent links. -/
theorem reindexAux_links (l : List FlatTreeNode) :
    ∀ (ctr : Option String → Nat) (a : String) (b : Option String),
      (∃ e ∈ reindexAux l ctr, e.id = a ∧ e.parentId = b) ↔
        (∃ e ∈ l, e.id = a ∧ e.parentId = b) := by
  induction l with
  | nil => intro ctr a b; simp [reindexAux]
  | cons n rest ih =>
    intro ctr a b
    rw [reindexAux]
    constructor
    · rintro ⟨e, he, h1, h2⟩
      rcases List.mem_cons.mp he with rfl | he'
      · exact ⟨n, by simp, h1, h2⟩
      · obtain ⟨e', he'', h1', h2'⟩ := (ih _ a b).mp ⟨e, he', h1, h2⟩
        exact ⟨e', by simp [he''], h1', h2'⟩
    · rintro ⟨e, he, h1, h2⟩
      rcases List.mem_cons.mp he with rfl | he'
      · exact ⟨{ e with index := ctr e.parentId }, by simp, h1, h2⟩
      · obtain ⟨e', he'', h1', h2'⟩ := (ih
          (fun k => if k = n.parentId then ctr n.parentId + 1 else ctr k)
          a b).mpr ⟨e, he', h1, h2⟩
        exact ⟨e', by simp [he''], h1', h2'⟩

/-- The ancestor relation only depends on the id/parent links. -/
theorem isAnc_of_sameLinks {L₁ L₂ : List FlatTreeNode}
    (h : sameLinks L₁ L₂) {a b : String} (hanc : IsAnc L₁ a b) :
    IsAnc L₂ a b := by
  induction hanc with
  | parent e he a hp =>
    obtain ⟨e', he', h1, h2⟩ := (h e.id e.parentId).mp ⟨e, he, rfl, rfl⟩
    have : IsAnc L₂ a e'.id := .parent e' he' a (by rw [h2, hp])
    exact h1 ▸ this
  | trans e he b' a hp hh ih =>
    obtain ⟨e', he', h1, h2⟩ := (h e.id e.parentId).mp ⟨e, he, rfl, rfl⟩
    have : IsAnc L₂ a e'.id := .trans e' he' b' a (by rw [h2, hp]) ih
    exact h1 ▸ this

/-- A rank that strictly decreases from child to present parent forbids a
node from being its own ancestor. -/
theorem isAnc_rank_lt {L : List FlatTreeNode} (rank : String → Nat)
    (hdec : ∀ n ∈ L, ∀ p, n.parentId = some p → (∃ m ∈ L, m.id = p) →
      rank p < rank n.id) :
    ∀ a b, (∃ m ∈ L, m.id = a) → IsAnc L a b → rank a < rank b := by
  intro a b ha h
  induction h with
  | parent e he a hp => exact hdec e he a hp ha
  | trans e he b' a hp hh ih =>
    have hb' : ∃ m ∈ L, m.id = b' := by
      obtain ⟨e', he', hid, _⟩ := isAnc_elim hh
      exact ⟨e', he', hid⟩
    have h1 : rank a < rank b' := by first | exact ih | exact ih ha
    have h2 := hdec e he b' hp hb'
    omega

theorem mem_splice {α : Type} (R U : List α) (k : Nat) (e : α) :
    e ∈ R.take k ++ U ++ R.drop k ↔ (e ∈ R ∨ e ∈ U) := by
  rw [List.mem_append, List.mem_append]
  constructor
  · rintro ((h | h) | h)
    · exact Or.inl (List.take_subset _ _ h)
    · exact Or.inr h
    · exact Or.inl (List.drop_subset _ _ h)
  · rintro (h | h)
    · rw [← List.take_append_drop k R] at h
      rcases List.mem_append.mp h with h | h
      · exact Or.inl (Or.inl h)
      · exact Or.inr h
    · exact Or.inl (Or.inr h)

/-- Elements of a completed move: the surviving reindexed nodes plus the
reparented dragged nodes. -/
theorem applyMove_mem (flat : List FlatTreeNode) (rootIds allIds : List String)
    (projParent : Option String) (depthDiff : Int)
    (dropPos : Option DropPosition) (tid : String) (e : FlatTreeNode) :
    e ∈ applyMove flat rootIds allIds projParent depthDiff dropPos tid ↔
      (e ∈ removeNodes flat rootIds ∨
        e ∈ (flat.filter (fun n => decide (n.id ∈ allIds))).map (fun n =>
          if rootIds.contains n.id then
            { n with depth := n.depth + depthDiff, parentId := projParent }
          else { n with depth := n.depth + depthDiff })) := by
  simp only [applyMove]
  rw [mem_splice]

/-- C4 core: the flat array produced by a completed move contains no node
that is its own ancestor. -/
theorem applyMove_acyclic (flat : List FlatTreeNode) (rootIds : List String)
    (projParent : Option String) (depthDiff : Int)
    (dropPos : Option DropPosition) (tid : String)
    (hpbc : parentBeforeChild flat) (hnd : idsNodup flat)
    (hguard : ∀ p, projParent = some p → p ∉ computedAllIds flat rootIds) :
    ∀ n ∈ applyMove flat rootIds (computedAllIds flat rootIds) projParent
        depthDiff dropPos tid,
      ¬ IsAnc (applyMove flat rootIds (computedAllIds flat rootIds) projParent
        depthDiff dropPos tid) n.id n.id := by
  intro n hn hanc
  have hchar : ∀ x, x ∈ computedAllIds flat rootIds ↔
      (x ∈ rootIds ∨ ∃ r ∈ rootIds, IsAnc flat r x) :=
    computedAllIds_mem flat hpbc hnd rootIds
  have hrchar : ∀ x, x ∈ removeSetAux flat rootIds ↔
      x ∈ computedAllIds flat rootIds := by
    intro x
    rw [removeSetAux_mem flat hpbc hnd rootIds x, hchar x]
  have hRdef : removeNodes flat rootIds
      = reindexSiblings (flat.filter
          (fun n => !(decide (n.id ∈ removeSetAux flat rootIds)))) := rfl
  -- id/parent links of the result
  have hlinks : sameLinks
      (applyMove flat rootIds (computedAllIds flat rootIds) projParent
        depthDiff dropPos tid)
      ((flat.filter (fun n => !(decide (n.id ∈ removeSetAux flat rootIds)))) ++
        ((flat.filter (fun n => decide (n.id ∈ computedAllIds flat rootIds))).map
          (fun n =>
            if rootIds.contains n.id then
              { n with depth := n.depth + depthDiff, parentId := projParent }
            else { n with depth := n.depth + depthDiff }))) := by
    intro a b
    constructor
    · rintro ⟨e, he, h1, h2⟩
      rcases (applyMove_mem flat rootIds _ projParent depthDiff dropPos tid e).mp he
        with h | h
      · rw [hRdef, reindexSiblings] at h
        obtain ⟨e', he', h1', h2'⟩ := (reindexAux_links _ _ a b).mp ⟨e, h, h1, h2⟩
        exact ⟨e', List.mem_append_left _ he', h1', h2'⟩
      · exact ⟨e, List.mem_append_right _ h, h1, h2⟩
    · rintro ⟨e, he, h1, h2⟩
      rcases List.mem_append.mp he with h | h
      · obtain ⟨e', he', h1', h2'⟩ :=
          (reindexAux_links _ (fun _ => 0) a b).mpr ⟨e, h, h1, h2⟩
        refine ⟨e', ?_, h1', h2'⟩
        rw [applyMove_mem]
        exact Or.inl (by rw [hRdef, reindexSiblings]; exact he')
      · exact ⟨e, (applyMove_mem flat rootIds _ projParent depthDiff dropPos
          tid e).mpr (Or.inr h), h1, h2⟩
  -- the rank argument on the link-equivalent plain list
  have hdec : ∀ m ∈ ((flat.filter
        (fun n => !(decide (n.id ∈ removeSetAux flat rootIds)))) ++
        ((flat.filter (fun n => decide (n.id ∈ computedAllIds flat rootIds))).map
          (fun n =>
            if rootIds.contains n.id then
              { n with depth := n.depth + depthDiff, parentId := projParent }
            else { n with depth := n.depth + depthDiff }))),
      ∀ p, m.parentId = some p → True →
      (fun x => entryPos flat x +
        (if x ∈ computedAllIds flat rootIds then flat.length + 1 else 0)) p
        < (fun x => entryPos flat x +
        (if x ∈ computedAllIds flat rootIds then flat.length + 1 else 0)) m.id := by
    intro m hm p hp _
    have hpos_le : entryPos flat p ≤ flat.length := List.findIdx_le_length _
    rcases List.mem_append.mp hm with hm0 | hmu
    · obtain ⟨hmf, hmns⟩ := List.mem_filter.mp hm0
      have hmid_not : m.id ∉ computedAllIds flat rootIds := by
        intro h
        have : m.id ∈ removeSetAux flat rootIds := (hrchar m.id).mpr h
        simp [this] at hmns
      have hp_not : p ∉ computedAllIds flat rootIds := by
        intro hpin
        apply hmid_not
        rw [hchar]
        rcases (hchar p).mp hpin with hroot | ⟨r, hr, hanc'⟩
        · exact Or.inr ⟨p, hroot, .parent m hmf p hp⟩
        · exact Or.inr ⟨r, hr, .trans m hmf p r hp hanc'⟩
      have hlt := entryPos_parent_lt flat hpbc hnd hmf hp
      simp only [hmid_not, hp_not, if_neg, if_false]
      omega
    · obtain ⟨e0, he0, hfe⟩ := List.mem_map.mp hmu
      obtain ⟨he0f, he0in'⟩ := List.mem_filter.mp he0
      have he0in : e0.id ∈ computedAllIds flat rootIds := by simpa using he0in'
      by_cases hroot : rootIds.contains e0.id
      · have hm_id : m.id = e0.id := by rw [← hfe, if_pos hroot]
        have hm_par : m.parentId = projParent := by rw [← hfe, if_pos hroot]
        have hpp : projParent = some p := by rw [← hm_par]; exact hp
        have hp_not : p ∉ computedAllIds flat rootIds := hguard p hpp
        rw [hm_id]
        simp only [hp_not, he0in, if_neg, if_false, if_pos, if_true]
        omega
      · have hm_id : m.id = e0.id := by rw [← hfe, if_neg hroot]
        have hm_par : m.parentId = e0.parentId := by rw [← hfe, if_neg hroot]
        have hpe0 : e0.parentId = some p := by rw [← hm_par]; exact hp
        have he0_notroot : e0.id ∉ rootIds := by
          intro hmemr
          exact hroot (List.elem_iff.mpr hmemr)
        have hr_ex : ∃ r ∈ rootIds, IsAnc flat r e0.id := by
          rcases (hchar e0.id).mp he0in with h | h
          · exact absurd h he0_notroot
          · exact h
        obtain ⟨r, hr, hanc'⟩ := hr_ex
        have hp_in : p ∈ computedAllIds flat rootIds := by
          rw [hchar]
          rcases (isAnc_cons_iff hnd he0f hpe0 r).mp hanc' with rfl | hanc''
          · exact Or.inl hr
          · exact Or.inr ⟨r, hr, hanc''⟩
        have hlt := entryPos_parent_lt flat hpbc hnd he0f hpe0
        rw [hm_id]
        simp only [hp_in, he0in, if_pos, if_true]
        omega
  have hnL : ∃ m ∈ ((flat.filter
        (fun n => !(decide (n.id ∈ removeSetAux flat rootIds)))) ++
        ((flat.filter (fun n => decide (n.id ∈ computedAllIds flat rootIds))).map
          (fun n =>
            if rootIds.contains n.id then
              { n with depth := n.depth + depthDiff, parentId := projParent }
            else { n with depth := n.depth + depthDiff }))), m.id = n.id := by
    obtain ⟨e', he', h1, _⟩ := (hlinks n.id n.parentId).mp ⟨n, hn, rfl, rfl⟩
    exact ⟨e', he', h1⟩
  have hancL := isAnc_of_sameLinks hlinks hanc
  have := isAnc_rank_lt
    (fun x => entryPos flat x +
      (if x ∈ computedAllIds flat rootIds then flat.length + 1 else 0))
    (fun m hm p hp hpe => hdec m hm p hp trivial) n.id n.id hnL hancL
  omega

/-- Any id in the claimed moving set (the dragged node or a descendant, and
in multiple-selection mode any selected node or a descendant of one) lies in
`allIdsToMove`. -/
theorem movingSet_mem (flat : List FlatTreeNode) (selected : List String)
    (mode : SelectionMode) (sid p : String)
    (hpbc : parentBeforeChild flat) (hnd : idsNodup flat)
    (hmv : p = sid ∨ IsAnc flat sid p ∨
      (movingMultiple selected mode sid = true ∧
        ∃ s ∈ selected, p = s ∨ IsAnc flat s p)) :
    p ∈ computedAllIds flat (computedRootIds flat selected mode sid) := by
  rw [computedAllIds_mem flat hpbc hnd]
  by_cases hmm : movingMultiple selected mode sid = true
  · have hsidsel : sid ∈ selected := by
      have h := hmm
      rw [movingMultiple] at h
      simp only [Bool.and_eq_true, decide_eq_true_eq] at h
      exact h.1.2
    have hcover : ∃ s ∈ selected, p = s ∨ IsAnc flat s p := by
      rcases hmv with rfl | h | ⟨_, h⟩
      · exact ⟨p, hsidsel, Or.inl rfl⟩
      · exact ⟨sid, hsidsel, Or.inr h⟩
      · exact h
    obtain ⟨s, hs, hps⟩ := hcover
    obtain ⟨r, hr, hrs⟩ := selected_root_cover flat hpbc hnd selected s hs
    rw [computedRootIds, if_pos hmm]
    rcases hps with rfl | hps <;> rcases hrs with rfl | hrs
    · exact Or.inl hr
    · exact Or.inr ⟨r, hr, hrs⟩
    · exact Or.inr ⟨r, hr, hps⟩
    · exact Or.inr ⟨r, hr, isAnc_trans flat hrs hps⟩
  · rw [computedRootIds, if_neg hmm]
    rcases hmv with rfl | h | ⟨hc, _⟩
    · exact Or.inl (by simp)
    · exact Or.inr ⟨sid, by simp, h⟩
    · exact absurd hc hmm

/-- C4: for every flat array in pre-order with unique ids, (a) whenever the
drag-end handler emits a structural change, the emitted flat array contains
no node that is its own ancestor, and (b) whenever the projected parent lies
in the moving set — the dragged node or one of its descendants, or in
multiple-selection mode any selected node or one of its descendants — the
handler emits no structural change and no drag-end notification: it only
resets session state. -/
theorem dndHandleDragEnd_spec (treeId : String) (flatNodes : List FlatTreeNode)
    (selectedIds : List String) (selectionMode : SelectionMode)
    (canDrop : Option (TreeDragEvent → Bool))
    (refs : DndSessionRefs) (ev : DragEndEvent)
    (hpbc : parentBeforeChild flatNodes) (hnd : idsNodup flatNodes) :
    (∀ result,
      (dndHandleDragEnd treeId flatNodes selectedIds selectionMode canDrop
          refs ev).itemsEmitted = some result →
      ∀ n ∈ result, ¬ IsAnc result n.id n.id) ∧
    (∀ sid p, ev.sourceId = some sid → refs.projectedParentId = some p →
      (p = sid ∨ IsAnc flatNodes sid p ∨
        (movingMultiple selectedIds selectionMode sid = true ∧
          ∃ s ∈ selectedIds, p = s ∨ IsAnc flatNodes s p)) →
      dndHandleDragEnd treeId flatNodes selectedIds selectionMode canDrop
          refs ev = ⟨none, false⟩) := by
  constructor
  · intro result hres n hn
    simp only [dndHandleDragEnd] at hres
    split at hres
    · simp at hres
    · split at hres
      · split at hres
        · split at hres
          · simp at hres
          · split at hres
            · simp at hres
            · rename_i hguard
              injection hres with hres
              subst hres
              exact applyMove_acyclic flatNodes _ _ _ _ _ hpbc hnd
                (fun q hq hqin =>
                  hguard (by rw [hq]; exact decide_eq_true hqin)) n hn
        · simp at hres
      · simp at hres
  · intro sid p hsid hpp hmv
    have hpin := movingSet_mem flatNodes selectedIds selectionMode sid p
      hpbc hnd hmv
    rcases hc : ev.canceled with _ | _
    · rcases ht : ev.targetId with _ | tid
      · simp [dndHandleDragEnd, hc, hsid, ht]
      · rcases hfs : flatNodes.find? (fun n => n.id == sid) with _ | sourceNode
        · simp [dndHandleDragEnd, hc, hsid, ht, hfs]
        · rcases hft : flatNodes.find? (fun n => n.id == tid) with _ | targetNode
          · simp [dndHandleDragEnd, hc, hsid, ht, hfs, hft]
          · have hsn : sourceNode.id = sid := by
              have h := List.find?_some hfs
              simpa using h
            simp [dndHandleDragEnd, hc, hsid, ht, hfs, hft, hsn, hpp, hpin]
    · simp [dndHandleDragEnd, hc]

/-- A two-node flat array (group `a` with child `a1`) for exercising the
drag-end handler. -/
def dndDemoFlat : List FlatTreeNode :=
  [⟨"a", 0, true, true, none, 0, 0⟩, ⟨"a1", 1, false, false, some "a", 1, 0⟩]

def dndDemoTreeId : String := "t"

def dndDemoRefs : DndSessionRefs := ⟨some .inside, some 1, some "a1"⟩

def dndDemoEvent : DragEndEvent := ⟨false, some "a", some "a1"⟩

/-- Witness for C4: dropping group `a` inside its own child `a1` is rejected
with no structural change. -/
theorem dndHandleDragEnd_spec_witness :
    parentBeforeChild dndDemoFlat ∧ idsNodup dndDemoFlat ∧
    dndHandleDragEnd dndDemoTreeId dndDemoFlat [] .single none dndDemoRefs
      dndDemoEvent = ⟨none, false⟩ :=
  have hpbc : parentBeforeChild dndDemoFlat :=
    parentBeforeChild_of_pbcAux _ (by decide)
  have hnd : idsNodup dndDemoFlat :=
    show (dndDemoFlat.map (·.id)).Nodup by decide
  ⟨hpbc, hnd,
    (dndHandleDragEnd_spec dndDemoTreeId dndDemoFlat [] .single none
        dndDemoRefs dndDemoEvent hpbc hnd).2 "a" "a1" rfl rfl
      (Or.inr (Or.inl (IsAnc.parent ⟨"a1", 1, false, false, some "a", 1, 0⟩
        (by decide) "a" rfl)))⟩

/-! ### Totality and membership of `buildTree` -/

/-- Whether an id occurs anywhere in a nested forest. -/
def forestHasId : NestedForest → String → Bool
  | .nil, _ => false
  | .cons i _ _ _ cs rest, q => (i == q) || forestHasId cs q || forestHasId rest q

/-- `q` is rendered inside the subtree that `buildTree`'s output hangs under
entry `e`: either `e` itself carries the id, or a child entry of `e` whose
children array was captured by `e`'s copy leads to it. -/
inductive ReachVia (flat : List FlatTreeNode) (q : String) : FlatTreeNode → Prop where
  | here (e : FlatTreeNode) (h : e.id = q) : ReachVia flat q e
  | down (e d : FlatTreeNode) (hcap : buildCaptured flat e = true)
      (hd : d ∈ flat) (hpar : d.parentId = some e.id)
      (h : ReachVia flat q d) : ReachVia flat q e

/-- The claimed appearance condition: the entry's `parentId` chain terminates
at `null` with every referenced parent present in the array. -/
inductive ChainToNull (flat : List FlatTreeNode) : FlatTreeNode → Prop where
  | root (e : FlatTreeNode) (h : e.parentId = none) : ChainToNull flat e
  | step (e p : FlatTreeNode) (hp : p ∈ flat) (hpar : e.parentId = some p.id)
      (h : ChainToNull flat p) : ChainToNull flat e

/-- An entry of a prefix has its id found before the prefix ends. -/
theorem entryPos_lt_of_mem_take (flat : List FlatTreeNode) {m : Nat}
    {e : FlatTreeNode} (he : e ∈ flat.take m) : entryPos flat e.id < m := by
  have h := findIdx_append_lt (fun n => n.id == e.id) (flat.take m) (flat.drop m)
    ⟨e, he, by simp⟩
  rw [List.take_append_drop] at h
  have h2 : (flat.take m).length ≤ m := by
    rw [List.length_take]
    exact min_le_left _ _
  exact lt_of_lt_of_le h h2

/-- With unique ids, an entry of a suffix has its id found no earlier than
the suffix starts. -/
theorem entryPos_ge_of_mem_drop (flat : List FlatTreeNode) (hnd : idsNodup flat)
    {k : Nat} {e : FlatTreeNode} (he : e ∈ flat.drop k) :
    k ≤ entryPos flat e.id := by
  obtain ⟨l₁, l₂, hdec⟩ := List.append_of_mem he
  have hflat : flat = (flat.take k ++ l₁) ++ e :: l₂ := by
    rw [List.append_assoc, ← hdec, List.take_append_drop]
  have hnone : ∀ x ∈ flat.take k ++ l₁, (x.id == e.id) = false := by
    intro x hx
    simp only [beq_eq_false_iff_ne, ne_eq]
    intro hxe
    have hx_flat : x ∈ flat := by rw [hflat]; exact List.mem_append_left _ hx
    have he_flat : e ∈ flat := by rw [hflat]; simp
    have hxeq : x = e := idsNodup_unique hnd hx_flat he_flat hxe
    subst hxeq
    have hnd' := hnd
    rw [idsNodup, hflat, List.map_append] at hnd'
    obtain ⟨_, _, hdisj⟩ := List.nodup_append.mp hnd'
    exact hdisj (List.mem_map_of_mem _ hx) (by simp)
  have hfind : flat.findIdx (fun n => n.id == e.id)
      = (flat.take k ++ l₁).length := by
    conv_lhs => rw [hflat]
    exact findIdx_append_first _ _ e l₂ hnone (by simp)
  have hk : k ≤ flat.length := by
    have : e ∈ flat := by rw [hflat]; simp
    by_contra h
    rw [List.drop_eq_nil_of_le (by omega)] at he
    simp at he
  rw [entryPos, hfind, List.length_append, List.length_take]
  omega

/-- Under the pre-order invariant, the children entries of `e` all sit
strictly after `e` in the array. -/
theorem children_sublist (flat : List FlatTreeNode)
    (hpbc : parentBeforeChild flat) (hnd : idsNodup flat)
    {e : FlatTreeNode} (he : e ∈ flat) :
    (flat.filter (fun g => g.parentId == some e.id)).Sublist
      (flat.drop (entryPos flat e.id + 1)) := by
  have hnil : (flat.take (entryPos flat e.id + 1)).filter
      (fun g => g.parentId == some e.id) = [] := by
    rw [List.filter_eq_nil_iff]
    intro g hg
    simp only [beq_iff_eq]
    intro hp
    have hg_flat : g ∈ flat := List.take_subset _ _ hg
    have h1 := entryPos_parent_lt flat hpbc hnd hg_flat hp
    have h2 := entryPos_lt_of_mem_take flat hg
    omega
  have key : flat.filter (fun g => g.parentId == some e.id)
      = (flat.drop (entryPos flat e.id + 1)).filter
          (fun g => g.parentId == some e.id) := by
    conv_lhs => rw [← List.take_append_drop (entryPos flat e.id + 1) flat]
    rw [List.filter_append, hnil, List.nil_append]
  rw [key]
  exact List.filter_sublist _

theorem sublist_tail_of_cons {α : Type} {a : α} {l₁ l₂ : List α}
    (h : (a :: l₁).Sublist l₂) : l₁.Sublist l₂.tail := by
  cases h with
  | cons b h' => exact List.sublist_of_cons_sublist h'
  | cons₂ b h' => exact h'

/-- Under the pre-order invariant no child entry precedes its parent, so the
copy made for `e` captures the children array exactly when `childrenLoaded`
already created it. -/
theorem cap_loaded (flat : List FlatTreeNode)
    (hpbc : parentBeforeChild flat) (hnd : idsNodup flat)
    {e : FlatTreeNode} (he : e ∈ flat) :
    buildCaptured flat e = e.childrenLoaded := by
  rw [buildCaptured]
  have hany : ((flat.take (flat.findIdx (fun g => g.id == e.id))).any
      (fun g => g.parentId == some e.id)) = false := by
    rw [List.any_eq_false]
    intro g hg
    simp only [beq_iff_eq]
    intro hp
    have hg_flat : g ∈ flat := List.take_subset _ _ hg
    have h1 := entryPos_parent_lt flat hpbc hnd hg_flat hp
    have h2 := entryPos_lt_of_mem_take flat hg
    have h3 : entryPos flat e.id = flat.findIdx (fun g => g.id == e.id) := rfl
    omega
  rw [hany, Bool.or_false]

/-- Soundness of the rendering: every id occurring in a rendered forest is
reached from one of the listed entries through captured children arrays. -/
theorem buildForestAux_hasId_reach (flat : List FlatTreeNode) (q : String) :
    ∀ fuel l, forestHasId (buildForestAux flat fuel l) q = true →
      ∃ e ∈ l, ReachVia flat q e := by
  intro fuel
  induction fuel with
  | zero => intro l h; simp [buildForestAux, forestHasId] at h
  | succ fuel ih =>
    intro l h
    cases l with
    | nil => simp [buildForestAux, forestHasId] at h
    | cons f rest =>
      rw [buildForestAux, forestHasId] at h
      simp only [Bool.or_eq_true] at h
      rcases h with (h | h) | h
      · exact ⟨f, by simp, .here f (by simpa using h)⟩
      · by_cases hcap : buildCaptured flat f = true
        · rw [if_pos hcap] at h
          obtain ⟨d, hd, hre⟩ := ih _ h
          obtain ⟨hdf, hdp⟩ := List.mem_filter.mp hd
          exact ⟨f, by simp, .down f d hcap hdf (by simpa using hdp) hre⟩
        · rw [if_neg hcap] at h
          simp [forestHasId] at h
      · obtain ⟨e, he, hre⟩ := ih _ h
        exact ⟨e, by simp [he], hre⟩

/-- Adequacy of the fuel: with the array in pre-order with unique ids, a
reachable id is rendered provided the fuel together with the start of the
suffix under scrutiny covers the array length. -/
theorem reach_hasId (flat : List FlatTreeNode) (q : String)
    (hpbc : parentBeforeChild flat) (hnd : idsNodup flat) :
    ∀ fuel k l e, l.Sublist (flat.drop k) → e ∈ l → ReachVia flat q e →
      flat.length + 1 ≤ fuel + k →
      forestHasId (buildForestAux flat fuel l) q = true := by
  intro fuel
  induction fuel with
  | zero =>
    intro k l e hsub he _ hfuel
    have h1 : e ∈ flat.drop k := hsub.subset he
    have h2 : k < flat.length := by
      by_contra h
      rw [List.drop_eq_nil_of_le (by omega)] at h1
      simp at h1
    omega
  | succ fuel ih =>
    intro k l e hsub he hre hfuel
    cases l with
    | nil => simp at he
    | cons f rest =>
      rw [buildForestAux, forestHasId]
      simp only [Bool.or_eq_true]
      rcases List.mem_cons.mp he with rfl | he'
      · cases hre with
        | here _ h => exact Or.inl (Or.inl (by simp [h]))
        | down _ d hcap hd hpar hre' =>
          refine Or.inl (Or.inr ?_)
          rw [if_pos hcap]
          have he_flat : e ∈ flat := List.drop_subset _ _ (hsub.subset (by simp))
          have hke : k ≤ entryPos flat e.id :=
            entryPos_ge_of_mem_drop flat hnd (hsub.subset (by simp))
          exact ih (entryPos flat e.id + 1) _ d
            (children_sublist flat hpbc hnd he_flat)
            (List.mem_filter.mpr ⟨hd, by simp [hpar]⟩) hre' (by omega)
      · refine Or.inr ?_
        have hrest : rest.Sublist (flat.drop (k + 1)) := by
          have h := sublist_tail_of_cons hsub
          rwa [List.tail_drop] at h
        exact ih (k + 1) rest e hrest he' hre (by omega)

/-- From a start entry whose ancestors are all loaded, reaching `q` yields an
entry with id `q` whose ancestors are all loaded. -/
theorem reach_target (flat : List FlatTreeNode) (q : String)
    (hpbc : parentBeforeChild flat) (hnd : idsNodup flat) :
    ∀ e, ReachVia flat q e → e ∈ flat →
      (∀ m ∈ flat, IsAnc flat m.id e.id → m.childrenLoaded = true) →
      ∃ x ∈ flat, x.id = q ∧
        ∀ m ∈ flat, IsAnc flat m.id x.id → m.childrenLoaded = true := by
  intro e hre
  induction hre with
  | here e h =>
    intro he hanc
    exact ⟨e, he, h, hanc⟩
  | down e d hcap hd hpar hsub ih =>
    intro he hanc
    apply ih hd
    intro m hm hanc_m
    rcases (isAnc_cons_iff hnd hd hpar m.id).mp hanc_m with heq | hanc'
    · have hme : m = e := idsNodup_unique hnd hm he heq
      rw [hme, ← cap_loaded flat hpbc hnd he]
      exact hcap
    · exact hanc m hm hanc'

/-- A reach derivation ending at `m` extends through a captured child of
`m`. -/
theorem reach_snoc (flat : List FlatTreeNode) (hnd : idsNodup flat)
    {m d : FlatTreeNode} (hm : m ∈ flat) (hcap : buildCaptured flat m = true)
    (hd : d ∈ flat) (hpar : d.parentId = some m.id) :
    ∀ r, ReachVia flat m.id r → r ∈ flat → ReachVia flat d.id r := by
  intro r hre
  induction hre with
  | here x h =>
    intro hx
    have hxm : x = m := idsNodup_unique hnd hx hm h
    rw [hxm]
    exact .down m d hcap hd hpar (.here d rfl)
  | down x d' hcap' hd' hpar' hsub ih =>
    intro _
    exact .down x d' hcap' hd' hpar' (ih hd')

/-- Every entry whose strict ancestors are all loaded is reached from a root
entry of the array. -/
theorem reach_from_root (flat : List FlatTreeNode)
    (hpbc : parentBeforeChild flat) (hnd : idsNodup flat) :
    ∀ e ∈ flat,
      (∀ m ∈ flat, IsAnc flat m.id e.id → m.childrenLoaded = true) →
      ∃ r ∈ flat, r.parentId = none ∧ ReachVia flat e.id r := by
  suffices H : ∀ k e, e ∈ flat → entryPos flat e.id = k →
      (∀ m ∈ flat, IsAnc flat m.id e.id → m.childrenLoaded = true) →
      ∃ r ∈ flat, r.parentId = none ∧ ReachVia flat e.id r by
    intro e he hanc
    exact H (entryPos flat e.id) e he rfl hanc
  intro k
  induction k using Nat.strong_induction_on with
  | _ k ih =>
    intro e he hk hanc
    cases hp : e.parentId with
    | none => exact ⟨e, he, hp, .here e rfl⟩
    | some p =>
      obtain ⟨pre, post, hdec⟩ := List.append_of_mem he
      have hmem := hpbc pre e post hdec p hp
      obtain ⟨m, hm_pre, hm_id⟩ := List.mem_map.mp hmem
      have hm_flat : m ∈ flat := by rw [hdec]; exact List.mem_append_left _ hm_pre
      have hanc_p : IsAnc flat p e.id := .parent e he p hp
      have hanc_m : IsAnc flat m.id e.id := by rw [hm_id]; exact hanc_p
      have hm_loaded : m.childrenLoaded = true := hanc m hm_flat hanc_m
      have hcap : buildCaptured flat m = true := by
        rw [cap_loaded flat hpbc hnd hm_flat]
        exact hm_loaded
      have hlt : entryPos flat m.id < k := by
        rw [hm_id, ← hk]
        exact entryPos_parent_lt flat hpbc hnd he hp
      obtain ⟨r, hr, hrnone, hreach⟩ := ih _ hlt m hm_flat rfl
        (fun x hx hax => hanc x hx (isAnc_trans flat hax hanc_m))
      exact ⟨r, hr, hrnone,
        reach_snoc flat hnd hm_flat hcap he (by rw [hp, hm_id]) r hreach hr⟩

/-- C10: `buildTree` is total by construction; for a flat array in pre-order
with unique ids, an id appears in its output iff some entry carries the id
and every strict-ancestor entry has `childrenLoaded = true` — the parentId
chain terminating at null with all parents present is not sufficient, since
an ancestor whose children array did not yet exist when its copy was pushed
drops its whole subtree. -/
theorem buildTree_membership (flat : List FlatTreeNode)
    (hpbc : parentBeforeChild flat) (hnd : idsNodup flat) (q : String) :
    forestHasId (buildTree flat) q = true ↔
      ∃ e ∈ flat, e.id = q ∧
        ∀ m ∈ flat, IsAnc flat m.id e.id → m.childrenLoaded = true := by
  constructor
  · intro h
    rw [buildTree] at h
    obtain ⟨r, hr, hre⟩ := buildForestAux_hasId_reach flat q _ _ h
    obtain ⟨hr_flat, hr_none'⟩ := List.mem_filter.mp hr
    have hr_none : r.parentId = none := by simpa using hr_none'
    exact reach_target flat q hpbc hnd r hre hr_flat
      (fun m hm hamc => absurd hamc (isAnc_root hnd hr_flat hr_none m.id))
  · rintro ⟨e, he, rfl, hanc⟩
    obtain ⟨r, hr, hrnone, hreach⟩ := reach_from_root flat hpbc hnd e he hanc
    rw [buildTree]
    exact reach_hasId flat e.id hpbc hnd (flat.length + 1) 0
      (flat.filter (fun f => f.parentId == none)) r
      (by rw [List.drop_zero]; exact List.filter_sublist _)
      (List.mem_filter.mpr ⟨hr, by simp [hrnone]⟩) hreach (by omega)

/-- A well-formed two-entry array whose root was flattened before its lazy
children loaded: the child's parent chain reaches null with all parents
present, yet `buildTree` drops the child. -/
def c10Flat : List FlatTreeNode :=
  [⟨"P", 0, false, false, none, 0, 0⟩, ⟨"C", 1, false, false, some "P", 1, 0⟩]

/-- C10 counterexample: entry `C`'s parentId chain terminates at null with
every referenced parent present, but `C` does not appear in the output of
`buildTree` because `P`'s copy was made before any children array existed. -/
theorem buildTree_membership_cex :
    (⟨"C", 1, false, false, some "P", 1, 0⟩ : FlatTreeNode) ∈ c10Flat ∧
    ChainToNull c10Flat ⟨"C", 1, false, false, some "P", 1, 0⟩ ∧
    forestHasId (buildTree c10Flat) "C" = false := by
  refine ⟨by decide, ?_, by decide⟩
  exact .step _ ⟨"P", 0, false, false, none, 0, 0⟩ (by decide) rfl (.root _ rfl)

/-- A loaded root with one child, for exercising `buildTree` membership. -/
def c10WitFlat : List FlatTreeNode :=
  [⟨"r", 0, true, true, none, 0, 0⟩, ⟨"c", 1, false, false, some "r", 1, 0⟩]

/-- Witness for C10 (amended) on a loaded two-entry array. -/
theorem buildTree_membership_witness :
    parentBeforeChild c10WitFlat ∧ idsNodup c10WitFlat ∧
    (forestHasId (buildTree c10WitFlat) "c" = true ↔
      ∃ e ∈ c10WitFlat, e.id = "c" ∧
        ∀ m ∈ c10WitFlat, IsAnc c10WitFlat m.id e.id →
          m.childrenLoaded = true) :=
  ⟨parentBeforeChild_of_pbcAux _ (by decide),
   show (c10WitFlat.map (·.id)).Nodup by decide,
   buildTree_membership c10WitFlat (parentBeforeChild_of_pbcAux _ (by decide))
     (show (c10WitFlat.map (·.id)).Nodup by decide) "c"⟩
